import Mathlib

/-!
Verification of the combinatorial zero-sum reconciliation engine
(`core_recon_engine.py`) against its natural-language specification.

The engine's data is embedded shallowly:

* amounts (`numpy` float vectors) become `List ℚ`;
* boolean row masks become `List Bool`;
* category ids are `ℕ`; a column's encoded vector (`int_cat_arrays[col]`)
  is a `List ℕ`; `all_categories[col]` is `List.range` of the category
  count;
* rules (insertion-ordered Python dicts mapping a column to a set of
  category ids) become insertion-ordered association lists
  `List (ℕ × List ℕ)` whose value lists are kept sorted (the engine only
  ever stores subsets of the sorted `avail` list, global complements of
  such subsets, or `np.unique` results, all of which are sorted).

Every definition follows the corresponding Python function; line numbers
in the doc comments refer to `core_recon_engine.py`.
-/

/-! Union-Find cluster assignment (`compute_clusters_from_pairs`,
lines 399-437).  The Python `parent` dict becomes an insertion-ordered
association list from id to id; the unbounded `while` loop of `find` becomes
a fuel-bounded loop whose fuel (`len(parent)`) is proved sufficient under the
forest invariant maintained by every call. -/

/-- An engine configuration after `prepare_data` (lines 136-157): the encoded
categorical columns, the amount vector, the target and the tolerance.
`codes` is `int_cat_arrays` (one entry per column id), `catCounts` holds
`len(unique_vals)` per column so that `all_categories[col] = range (catCounts col)`.
`cancelled` is the `cancel_search` flag, constant in this sequential embedding
because nothing sets it during a run. -/
structure Eng where
  allColumns : List ℕ
  codes : List (List ℕ)
  catCounts : List ℕ
  value_array : List ℚ
  TARGET_SUM : ℚ
  tol : ℚ
  static_ordering : Bool
  cancelled : Bool
deriving Repr

/-- The encoded vector `int_cat_arrays[col]`. -/
def codeOf (E : Eng) (c : ℕ) : List ℕ := E.codes.getD c []

/-- `all_categories[col] = set(range(len(unique_vals)))` (line 148), as a sorted list. -/
def allCatsList (E : Eng) (c : ℕ) : List ℕ := List.range (E.catCounts.getD c 0)

/-- `cat_masks[col][c] = (int_cat_arrays[col] == c)` (lines 152-155). -/
def cat_mask (E : Eng) (c cat : ℕ) : List Bool := (codeOf E c).map (fun k => k == cat)

/-- `np.logical_or.reduce` over a list of masks. -/
def or_reduce : List (List Bool) → List Bool
  | [] => []
  | m :: rest => rest.foldl (fun a b => a.zipWith or b) m

/-- Pointwise conjunction of two masks (`&` on numpy boolean arrays). -/
def and_mask (a b : List Bool) : List Bool := a.zipWith and b

/-- `np.sum(value_array[mask])`: the sum of the amounts selected by a mask. -/
def masked_sum : List ℚ → List Bool → ℚ
  | [], _ => 0
  | _, [] => 0
  | a :: as_, b :: bs => (if b then a else 0) + masked_sum as_ bs

/-- The mask `value_array >= 0`. -/
def nonneg_mask (A : List ℚ) : List Bool := A.map (fun a => decide (0 ≤ a))

/-- The mask `value_array <= 0`. -/
def nonpos_mask (A : List ℚ) : List Bool := A.map (fun a => decide (a ≤ 0))

/-- `ub = np.sum(value_array[mask & (value_array >= 0)])` (line 162). -/
def pos_bound (E : Eng) (mask : List Bool) : ℚ :=
  masked_sum E.value_array (and_mask mask (nonneg_mask E.value_array))

/-- `lb = np.sum(value_array[mask & (value_array <= 0)])` (line 166). -/
def neg_bound (E : Eng) (mask : List Bool) : ℚ :=
  masked_sum E.value_array (and_mask mask (nonpos_mask E.value_array))

/-- Embedding of `CandidateRuleEngine.check_pruning` (lines 160-169). -/
def check_pruning (E : Eng) (mask : List Bool) (current_sum : ℚ) : Bool :=
  if current_sum < E.TARGET_SUM then
    if pos_bound E mask < E.TARGET_SUM - E.tol then false else true
  else if current_sum > E.TARGET_SUM then
    if neg_bound E mask > E.TARGET_SUM + E.tol then false else true
  else true

/-- A rule: an insertion-ordered association list from a column id to a sorted
list of category ids (the shallow image of a Python dict `{col: set_of_ids}`). -/
abbrev Rule := List (ℕ × List ℕ)

/-- Embedding of `CandidateRuleEngine.mirror_rule` (lines 125-133).  The
category set of the last-inserted column is replaced by its complement inside
`self.all_categories[col]`, the column's full global category set. -/
def mirror_rule (E : Eng) (rule : Rule) : Rule :=
  match rule.getLast? with
  | none => []
  | some last =>
      rule.map (fun e =>
        if e.1 = last.1 then
          (e.1, (allCatsList E e.1).filter (fun c => !(e.2.contains c)))
        else e)

/-- `set(np.unique(int_cat_arrays[col][mask]))` (lines 330-331, also used at
lines 260-261): the category ids of a column present among the rows selected
by a mask, as a sorted list. -/
def avail_cats (E : Eng) (c : ℕ) (m : List Bool) : List ℕ :=
  (List.range (E.catCounts.getD c 0)).filter
    (fun v => ((codeOf E c).zip m).any (fun e => e.1 == v && e.2))

/-- The mirror rule as claim C3 words it: the complement of the last column's
set is taken within the categories of that column available under the state's
current mask (`avail_cats`), not within the full global category set.  This
definition follows the claim's words and exists only to be compared with
`mirror_rule`, which follows the source. -/
def mirror_rule_claimC3 (E : Eng) (mask : List Bool) (rule : Rule) : Rule :=
  match rule.getLast? with
  | none => []
  | some last =>
      rule.map (fun e =>
        if e.1 = last.1 then
          (e.1, (avail_cats E e.1 mask).filter (fun c => !(e.2.contains c)))
        else e)

/-- A two-row engine whose single column has two global categories but whose
current mask `[true, false]` leaves only category 0 available: row 0 has
category 0, row 1 category 1. -/
def engTwoCats : Eng := ⟨[0], [[0, 1]], [2], [1, 1], 0, 0, false, false⟩

/-- `np.where(mask)[0]`: the indices at which a boolean mask is true, ascending. -/
def trueIndices (m : List Bool) : List ℕ :=
  (List.range m.length).filter (fun i => m.getD i false)

/-- `np.ones(value_array.shape[0], dtype=bool)` (line 266). -/
def onesMask (E : Eng) : List Bool := E.value_array.map (fun _ => true)

/-- Embedding of `_amount_decimal_places` (lines 99-103):
`2` when the tolerance is not positive, otherwise
`max(2, -int(math.floor(math.log10(tol))))`, with the real-valued
`math.log10` modelled exactly through `Int.log` (see
`solution_message_precision` for the bridge to `Real.logb`). -/
def amount_decimal_places (tol : ℚ) : ℕ :=
  if tol ≤ 0 then 2 else (max 2 (-Int.log 10 tol)).toNat

/-- The row-selection mask recomputed from a completed rule inside
`register_solution` (lines 266-271): ones, AND-ed with the OR of the
per-category masks of every column of the rule that is a real column. -/
def full_mask_of (E : Eng) (complete : Rule) : List Bool :=
  (complete.filter (fun e => E.allColumns.contains e.1)).foldl
    (fun m e => and_mask m (or_reduce (e.2.map (cat_mask E e.1)))) (onesMask E)

/-- The row-set fingerprint `mask_key = tuple(np.where(full_mask)[0])` (line 272). -/
def fingerprint_of (E : Eng) (complete : Rule) : List ℕ :=
  trueIndices (full_mask_of E complete)

/-- The engine's solution registry: `solution_mask_map` (fingerprint to
solution id), `solution_counter`, `candidate_rule_results` (each rule paired
with the `_solution_id` written into it) and the emitted progress messages,
kept as `(solution id, printed sum, decimal places used)` triples. -/
structure Registry where
  maskMap : List (List ℕ × ℕ)
  counter : ℕ
  results : List (Rule × ℕ)
  messages : List (ℕ × ℚ × ℕ)
deriving Repr, DecidableEq

/-- The registry at the start of `search()` (lines 383-387). -/
def initRegistry : Registry := ⟨[], 0, [], []⟩

/-- Embedding of `register_solution` (lines 264-289).  Returns the updated
registry and the method's boolean result. -/
def register_solution (E : Eng) (complete : Rule) (current_sum : ℚ)
    (reg : Registry) : Registry × Bool :=
  let mask_key := fingerprint_of E complete
  let dp := amount_decimal_places E.tol
  if mask_key ∈ reg.maskMap.map Prod.fst then (reg, false)
  else
    let sid := reg.counter + 1
    (⟨reg.maskMap ++ [(mask_key, sid)], sid, reg.results ++ [(complete, sid)],
      reg.messages ++ [(sid, current_sum, dp)]⟩, true)

/-- A sequence of registration attempts applied to a registry. -/
def applyRegs (E : Eng) (inputs : List (Rule × ℚ)) (reg : Registry) : Registry :=
  inputs.foldl (fun r inp => (register_solution E inp.1 inp.2 r).1) reg

/-- The structural registry invariant: fingerprints are pairwise distinct and
the stored solution ids are exactly `1, 2, …, counter` in insertion order. -/
def RegInv (reg : Registry) : Prop :=
  (reg.maskMap.map Prod.fst).Nodup
  ∧ reg.maskMap.map Prod.snd = List.range' 1 reg.counter

/-- A triple yielded by a subset generator: `(subset, mask, sum)`. -/
abbrev Triple := List ℕ × List Bool × ℚ

/-- `get_mask(candidate)` inside the original-mode generator (lines 176-178):
the parent mask AND-ed with the union of the per-category masks of the
candidate subset. -/
def get_mask (E : Eng) (col : ℕ) (current_mask : List Bool)
    (candidate : List ℕ) : List Bool :=
  and_mask current_mask (or_reduce (candidate.map (cat_mask E col)))

/-- The inline early-prune test of the generators (lines 200-207 and 235-244):
`continue` when the sum is below target and the positive-part bound already
falls short, or above target and the negative-part bound already overshoots. -/
def prune_early (E : Eng) (nm : List Bool) (ns : ℚ) : Bool :=
  if ns < E.TARGET_SUM then pos_bound E nm < E.TARGET_SUM - E.tol
  else if ns > E.TARGET_SUM then neg_bound E nm > E.TARGET_SUM + E.tol
  else false

/-- The mirror yield of the original-mode generator (lines 186-190 and
210-214): the complement of the candidate within `avail`, with its sum derived
as `global_total - candidate_sum`, yielded only when non-empty, passing
`check_pruning` (evaluated on the candidate's mask `nm`), and within tolerance
of the target. -/
def mirror_triples (E : Eng) (col : ℕ) (current_mask : List Bool)
    (avail : List ℕ) (global_total : ℚ) (nc : List ℕ) (nm : List Bool)
    (ns : ℚ) : List Triple :=
  let mr := avail.filter (fun c => !(nc.contains c))
  let msum := global_total - ns
  if mr ≠ [] ∧ check_pruning E nm msum = true ∧ |msum - E.TARGET_SUM| ≤ E.tol then
    [(mr, get_mask E col current_mask mr, msum)]
  else []

/-- The recursive part `rec(curr, start)` of the original-mode generator
(lines 192-215): for each index `i` from `start` below `|curr|`, drop the
`i`-th smallest element of `curr` (all lists here are sorted, so this is
`nc.discard(sorted(curr)[i])`), skip empty results, apply the inline
early-prune `continue`, otherwise yield the candidate (guarded by
`check_pruning`), yield its mirror, and recurse with start `i`.  The Python
recursion terminates because each nested call shrinks `curr` or advances `i`;
here that measure is made explicit as structural fuel, and
`rec_gen_fuel_stable` shows the fuel used by the generator is enough. -/
def rec_gen (E : Eng) (col : ℕ) (current_mask : List Bool) (avail : List ℕ)
    (global_total : ℚ) : ℕ → List ℕ → ℕ → List Triple
  | 0, _, _ => []
  | fuel + 1, curr, i =>
    if i < curr.length then
      (let nc := curr.eraseIdx i
       if nc = [] then [] else
         let nm := get_mask E col current_mask nc
         let ns := masked_sum E.value_array nm
         if prune_early E nm ns then [] else
           (if check_pruning E nm ns then [(nc, nm, ns)] else [])
           ++ mirror_triples E col current_mask avail global_total nc nm ns
           ++ rec_gen E col current_mask avail global_total fuel nc i)
      ++ rec_gen E col current_mask avail global_total fuel curr (i + 1)
    else []

/-- Embedding of `generate_candidate_subsets_pruned_original` (lines 172-217)
as the list of all yielded `(subset, mask, sum)` triples, in yield order.
`avail` is passed as a sorted duplicate-free list. -/
def generate_candidate_subsets_pruned_original (E : Eng) (col : ℕ)
    (avail : List ℕ) (current_mask : List Bool) : List Triple :=
  let global_total := masked_sum E.value_array (onesMask E)
  let candidate := avail
  let new_mask := get_mask E col current_mask candidate
  let new_sum := masked_sum E.value_array new_mask
  (if check_pruning E new_mask new_sum then [(candidate, new_mask, new_sum)] else [])
  ++ mirror_triples E col current_mask avail global_total candidate new_mask new_sum
  ++ rec_gen E col current_mask avail global_total (2 * candidate.length + 1) candidate 0

/-- The engine used to exhibit the mirror-sum defect: two grouping columns
(column 0 with categories `a → 0, b → 1` encoded `[0,0,0,1]`; column 1 with
categories `x → 0, y → 1, z → 2` encoded `[0,1,1,2]`), amounts
`[5, -2, 4, -3]`, target `2`, tolerance `0`. -/
def badEng : Eng := ⟨[0, 1], [[0, 0, 0, 1], [0, 1, 1, 2]], [2, 3], [5, -2, 4, -3], 2, 0, false, false⟩

/-- `rule_to_key` (lines 112-116): the canonical memoization key, listing the
rule's entries in declared column order with each category set sorted.  In
this embedding the stored sets are already sorted lists, so the Python
`sorted` is the identity here; we keep a sort to mirror the source. -/
def insertSortedNat (x : ℕ) : List ℕ → List ℕ
  | [] => [x]
  | y :: ys => if y ≤ x then y :: insertSortedNat x ys else x :: y :: ys

/-- Insertion sort on naturals, the image of Python `sorted`. -/
def sortNat (l : List ℕ) : List ℕ := l.foldl (fun acc x => insertSortedNat x acc) []

/-- A memoization key: the tuple of `(col, sorted categories)` pairs. -/
abbrev RuleKey := List (ℕ × List ℕ)

/-- Embedding of `rule_to_key` (lines 112-116). -/
def rule_to_key (E : Eng) (rule : Rule) : RuleKey :=
  E.allColumns.filterMap (fun c => (rule.lookup c).map (fun s => (c, sortNat s)))

/-- Embedding of `complete_rule` (lines 256-262): every still-unconstrained
column is filled with the categories observed under the current mask (dict
insertion appends at the end). -/
def complete_rule (E : Eng) (partial_rule : Rule) (current_mask : List Bool) : Rule :=
  E.allColumns.foldl
    (fun comp c =>
      if (comp.lookup c).isSome then comp
      else comp ++ [(c, avail_cats E c current_mask)])
    partial_rule

/-- A BFS state: the partial rule and its selection mask (lines 292-297; the
sum is recomputed from the mask at the start of `process_state`). -/
structure BFSState where
  rule : Rule
  mask : List Bool
deriving Repr, DecidableEq

/-- The engine's shared mutable search state: the memoization cache (a set of
rule keys) and the solution registry. -/
structure EngSt where
  memo : List RuleKey
  reg : Registry
deriving Repr, DecidableEq

/-- The solution-registration step shared by the three call sites of
`process_state` (lines 313-316, 324-327 and 358-361): when the sum is within
tolerance of the target, complete the rule and register it. -/
def register_if_match (E : Eng) (rule : Rule) (mask : List Bool) (s : ℚ)
    (st : EngSt) : EngSt :=
  if |s - E.TARGET_SUM| ≤ E.tol then
    { st with reg := (register_solution E (complete_rule E rule mask) s st.reg).1 }
  else st

/-- `min(remaining, key=lambda c: len(avail(c)))` (line 336): the first
column of `remaining` whose available-category count is minimal. -/
def min_avail_col (E : Eng) (remaining : List ℕ) (mask : List Bool) : ℕ :=
  remaining.foldl
    (fun best c =>
      if (avail_cats E c mask).length < (avail_cats E best mask).length then c else best)
    (remaining.headD 0)

/-- The yield-consumption loop of `process_state` (lines 351-363): each
generated triple is dropped unless it passes `check_pruning`; a matching sum
registers a solution; every surviving triple becomes a child state.  The
per-iteration `cancel_search` early return is kept (it discards everything,
like the Python `return []`). -/
def process_yields (E : Eng) (next_col : ℕ) (current_rule : Rule) :
    List Triple → EngSt → List BFSState × EngSt
  | [], st => ([], st)
  | (subset, new_mask, new_sum) :: rest, st =>
    if E.cancelled then ([], st)
    else if !(check_pruning E new_mask new_sum) then
      process_yields E next_col current_rule rest st
    else
      let new_rule := current_rule ++ [(next_col, subset)]
      let st1 := register_if_match E new_rule new_mask new_sum st
      let out := process_yields E next_col current_rule rest st1
      ({ rule := new_rule, mask := new_mask } :: out.1, out.2)

/-- Embedding of `process_state` (lines 292-363) over the explicit shared
state.  Subset generation is the original mode (the engine's default). -/
def process_state (E : Eng) (state : BFSState) (st : EngSt) :
    List BFSState × EngSt :=
  if E.cancelled then ([], st)
  else
    let current_rule := state.rule
    let current_mask := state.mask
    let current_sum := masked_sum E.value_array current_mask
    let mirror := mirror_rule E current_rule
    let rule_key := rule_to_key E current_rule
    let mirror_key := rule_to_key E mirror
    if rule_key ∈ st.memo ∨ mirror_key ∈ st.memo then
      ([], register_if_match E current_rule current_mask current_sum st)
    else
      let st := { st with memo := mirror_key :: rule_key :: st.memo }
      if !(check_pruning E current_mask current_sum) then ([], st)
      else
        let remaining := E.allColumns.filter (fun c => !(current_rule.lookup c).isSome)
        if remaining = [] then
          ([], register_if_match E current_rule current_mask current_sum st)
        else
          let next_col := if E.static_ordering then remaining.headD 0
            else min_avail_col E remaining current_mask
          let av := avail_cats E next_col current_mask
          if av = [] then ([], st)
          else
            process_yields E next_col current_rule
              (generate_candidate_subsets_pruned_original E next_col av current_mask) st

/-- One BFS level (lines 371-379): every state of the level is processed and
the child lists are concatenated in submission order.  The thread pool is
modelled by the sequential schedule that runs the level's tasks in submission
order (a legal schedule of the executor). -/
def run_level (E : Eng) : List BFSState → EngSt → List BFSState × EngSt
  | [], st => ([], st)
  | s :: rest, st =>
    let head := process_state E s st
    let tail := run_level E rest head.2
    (head.1 ++ tail.1, tail.2)

/-- Lexicographic boolean order on sorted category lists. -/
def natListLe : List ℕ → List ℕ → Bool
  | [], _ => true
  | _ :: _, [] => false
  | x :: xs, y :: ys => if x < y then true else if y < x then false else natListLe xs ys

/-- Lexicographic boolean order on rule keys, as Python compares tuples. -/
def ruleKeyLe : RuleKey → RuleKey → Bool
  | [], _ => true
  | _ :: _, [] => false
  | (c, s) :: xs, (d, t) :: ys =>
    if c < d then true else if d < c then false
    else if natListLe s t then (if natListLe t s then ruleKeyLe xs ys else true)
    else false

/-- Stable insertion into a list sorted by `ruleKeyLe` on the rule key. -/
def insertState (E : Eng) (s : BFSState) : List BFSState → List BFSState
  | [] => [s]
  | t :: ts =>
    if ruleKeyLe (rule_to_key E t.rule) (rule_to_key E s.rule) then
      t :: insertState E s ts
    else s :: t :: ts

/-- `next_level.sort(key=lambda s: self.rule_to_key(s["rule"]))` (line 380):
a stable sort by rule key. -/
def sortStates (E : Eng) (l : List BFSState) : List BFSState :=
  l.foldl (fun acc s => insertState E s acc) []

/-- The level loop of `parallel_bfs_search_rule_dynamic` (lines 365-381) with
explicit fuel (each child state constrains one more column than its parent, so
`|columns| + 2` levels always reach the empty level).  Returns the remaining
level (empty iff the Python `while` exited) and the final shared state. -/
def bfs_levels (E : Eng) : ℕ → List BFSState → EngSt → List BFSState × EngSt
  | 0, level, st => (level, st)
  | fuel + 1, level, st =>
    if level = [] ∨ E.cancelled then (level, st)
    else
      let out := run_level E level st
      bfs_levels E fuel (sortStates E out.1) out.2

/-- Embedding of `search` (lines 383-389): fresh shared state, root state with
the empty rule and the all-ones mask, then the level loop. -/
def search (E : Eng) (fuel : ℕ) : List BFSState × EngSt :=
  bfs_levels E fuel [{ rule := [], mask := onesMask E }] ⟨[], initRegistry⟩

/-- The result-collection loop of `parallel_bfs_search_rule_dynamic`
(lines 374-379): `fut.result()` re-raises an exception stored in a future, so
the first failing task's error propagates and the later results are never
collected.  Task outcomes are modelled as `Except`: `.error` for a raised
exception, `.ok children` for a normal return. -/
def collect_level_results {σ ε : Type} : List (Except ε (List σ)) → Except ε (List σ)
  | [] => Except.ok []
  | Except.error e :: _ => Except.error e
  | Except.ok l :: rest =>
    match collect_level_results rest with
    | Except.error e => Except.error e
    | Except.ok ls => Except.ok (l ++ ls)

/-- One BFS level of the driver with task outcomes made explicit: submit every
state (lines 372-373), then collect the results in submission order. -/
def run_level_exc {σ ε : Type} (f : σ → Except ε (List σ))
    (states : List σ) : Except ε (List σ) :=
  collect_level_results (states.map f)

/-- A concrete worker body whose processing of state `0` raises. -/
def raising_task : ℕ → Except String (List ℕ) :=
  fun s => if s = 0 then Except.error "state failed" else Except.ok []

/-- The parent map of the Union-Find: a Python dict as an association list. -/
abbrev PMap := List (String × String)

/-- The keys of the parent map, in insertion order. -/
def keysP (p : PMap) : List String := p.map Prod.fst

/-- `parent[x] = v`: replace the value of an existing key in place, else
append (Python dict assignment semantics). -/
def setP : PMap → String → String → PMap
  | [], x, v => [(x, v)]
  | (k, w) :: rest, x, v =>
    if k = x then (k, v) :: rest else (k, w) :: setP rest x v

/-- One parent-pointer step: `parent[x]` when present, else `x` itself. -/
def pstep (p : PMap) (x : String) : String := (p.lookup x).getD x

/-- Iterated parent steps. -/
def chase (p : PMap) : ℕ → String → String
  | 0, x => x
  | n + 1, x => chase p n (pstep p x)

/-- A root: its parent pointer is itself (also any id outside the map). -/
def isRootP (p : PMap) (x : String) : Prop := pstep p x = x

/-- The number of non-root entries of the map; parent chains have at most this
length, and it bounds the fuel every `find` needs. -/
def nrP (p : PMap) : ℕ := (p.filter (fun e => e.2 != e.1)).length

/-- The forest invariant: from every id, `nrP p` parent steps reach a root. -/
def InvP (p : PMap) : Prop := ∀ x, isRootP p (chase p (nrP p) x)

/-- The root of an id (meaningful under `InvP`). -/
def rootD (p : PMap) (x : String) : String := chase p (nrP p) x

/-- Values of the map point back into its keys. -/
def ClosedP (p : PMap) : Prop := ∀ e ∈ p, e.2 ∈ keysP p

/-- The combined Union-Find invariant. -/
structure UFInv (p : PMap) : Prop where
  inv : InvP p
  closed : ClosedP p
  nodup : (keysP p).Nodup

/-- The path-halving loop of `find` (lines 403-409): while `parent[x] != x`,
set `parent[x] = parent[parent[x]]` and move `x` two steps up.  The Python
`while` becomes a fuel-bounded loop; `find` passes `len(parent)` as fuel,
which `findAux_spec` proves sufficient under the forest invariant. -/
def findAux : ℕ → PMap → String → String × PMap
  | 0, p, x => (x, p)
  | fuel + 1, p, x =>
    if pstep p x = x then (x, p)
    else findAux fuel (setP p x (pstep p (pstep p x))) (pstep p (pstep p x))

/-- Embedding of `find` (lines 403-409): insert a missing id as its own
parent, then run the halving loop. -/
def find (p : PMap) (x : String) : String × PMap :=
  let p0 := if (p.lookup x).isSome then p else setP p x x
  findAux p0.length p0 x

/-- Embedding of `union` (lines 411-414): find both roots (threading the
mutated parent map) and graft the first root under the second when distinct. -/
def union (p : PMap) (a b : String) : PMap :=
  let fa := find p a
  let fb := find fa.2 b
  if fa.1 ≠ fb.1 then setP fb.2 fa.1 fb.1 else fb.2

/-- The fold of `union` over the pair rows (lines 425-426). -/
def unionFold (pairs : List (String × String)) (p : PMap) : PMap :=
  pairs.foldl (fun q e => union q e.1 e.2) p

/-- Two ids are joined by a chain of pair records: the reflexive-transitive
closure of "some row links them, in either orientation". -/
def pairRel (pairs : List (String × String)) (u v : String) : Prop :=
  (u, v) ∈ pairs ∨ (v, u) ∈ pairs

/-- Connectivity via a chain of pair records. -/
def Conn (pairs : List (String × String)) : String → String → Prop :=
  Relation.ReflTransGen (pairRel pairs)

/-- All entries of the map are self-loops (the state after the pre-insertion
loop of lines 421-423). -/
def SelfP (p : PMap) : Prop := ∀ e ∈ p, e.2 = e.1

/-- The pre-insertion loop of `compute_clusters_from_pairs` (lines 421-423):
every id of either column becomes its own parent, first occurrence first. -/
def initFold (ids : List String) : PMap :=
  ids.foldl (fun p u => if (p.lookup u).isSome then p else setP p u u) []

/-- The cluster-id assignment loop of `compute_clusters_from_pairs`
(lines 428-436): for each key (in insertion order), find its root (with path
halving), draw a fresh dense id for a new root, and record the key's id. -/
def assignLoop : PMap → List String → List (String × ℕ) → List (String × ℕ) → ℕ →
    List (String × ℕ) × List (String × ℕ) × ℕ × PMap
  | p, [], res, r2i, cnt => (res, r2i, cnt, p)
  | p, uid :: rest, res, r2i, cnt =>
    match r2i.lookup (find p uid).1 with
    | some cid => assignLoop (find p uid).2 rest (res ++ [(uid, cid)]) r2i cnt
    | none => assignLoop (find p uid).2 rest (res ++ [(uid, cnt + 1)])
        (r2i ++ [((find p uid).1, cnt + 1)]) (cnt + 1)

/-- Embedding of `compute_clusters_from_pairs` (lines 399-437) for a pair
table whose two id columns already hold strings (`str` is the identity on
them); `compute_clusters_general` places the `str` conversion. -/
def compute_clusters_from_pairs (pairs : List (String × String)) : List (String × ℕ) :=
  let ids := pairs.map Prod.fst ++ pairs.map Prod.snd
  let p0 := initFold ids
  let p1 := unionFold pairs p0
  (assignLoop p1 (keysP p1) [] [] 0).1

/-- `compute_clusters_from_pairs` on a pair table with arbitrary cell type:
the source applies `str(uid)` to every id taken from the two columns
(lines 421-426), so the computation operates on the `f`-image of the table. -/
def compute_clusters_general {α : Type} (f : α → String)
    (pairs : List (α × α)) : List (String × ℕ) :=
  compute_clusters_from_pairs (pairs.map (fun q => (f q.1, f q.2)))

/-- The node list of a pair table: both columns, left column first
(lines 421-423). -/
def nodeIds (pairs : List (String × String)) : List String :=
  pairs.map Prod.fst ++ pairs.map Prod.snd

/-- A mixed-type id cell as found in a pandas object column: either an
integer or a string; `str()` maps both to their text form. -/
def strOfCell : ℕ ⊕ String → String
  | Sum.inl n => toString n
  | Sum.inr s => s

attribute [local semireducible] Rat.add Rat.sub Rat.mul Rat.inv

/-- Dropping strictly negative summands can only increase a masked sum: the
total over a mask is at most the total over the rows of the mask whose amount
is non-negative. -/
theorem masked_sum_le_pos_part (A : List ℚ) (m : List Bool) :
    masked_sum A m ≤ masked_sum A (and_mask m (nonneg_mask A)) := by
  induction A generalizing m with
  | nil => cases m <;> simp [masked_sum]
  | cons a as_ ih =>
    cases m with
    | nil => simp [masked_sum, and_mask, nonneg_mask]
    | cons b bs =>
      have hrest := ih bs
      have hhead : (if b then a else 0) ≤ (if b && decide ((0:ℚ) ≤ a) then a else 0) := by
        cases b with
        | false => simp
        | true =>
          simp only [Bool.true_and, if_true]
          by_cases ha : (0:ℚ) ≤ a
          · rw [decide_eq_true ha]; simp
          · rw [decide_eq_false ha]
            simpa using le_of_not_le ha
      simp only [masked_sum, and_mask, nonneg_mask, List.map_cons, List.zipWith_cons_cons]
      exact add_le_add hhead hrest

/-- Dropping strictly positive summands can only decrease a masked sum. -/
theorem neg_part_le_masked_sum (A : List ℚ) (m : List Bool) :
    masked_sum A (and_mask m (nonpos_mask A)) ≤ masked_sum A m := by
  induction A generalizing m with
  | nil => cases m <;> simp [masked_sum]
  | cons a as_ ih =>
    cases m with
    | nil => simp [masked_sum, and_mask, nonpos_mask]
    | cons b bs =>
      have hrest := ih bs
      have hhead : (if b && decide (a ≤ (0:ℚ)) then a else 0) ≤ (if b then a else 0) := by
        cases b with
        | false => simp
        | true =>
          simp only [Bool.true_and, if_true]
          by_cases ha : a ≤ (0:ℚ)
          · rw [decide_eq_true ha]; simp
          · rw [decide_eq_false ha]
            simpa using le_of_not_le ha
      simp only [masked_sum, and_mask, nonpos_mask, List.map_cons, List.zipWith_cons_cons]
      exact add_le_add hhead hrest

/-- C5: the bound evaluator behaves exactly as specified.  For every engine,
mask `M` and cached sum `s`: when `s < T` the state is viable iff the sum of
the non-negative amounts of `M` is at least `T − ε`; when `s > T` it is viable
iff the sum of the non-positive amounts of `M` is at most `T + ε`; when
`s = T` it is always viable. -/
theorem check_pruning_spec (E : Eng) (M : List Bool) (s : ℚ) :
    (s < E.TARGET_SUM → (check_pruning E M s = true ↔ E.TARGET_SUM - E.tol ≤ pos_bound E M))
    ∧ (s > E.TARGET_SUM → (check_pruning E M s = true ↔ neg_bound E M ≤ E.TARGET_SUM + E.tol))
    ∧ (s = E.TARGET_SUM → check_pruning E M s = true) := by
  refine ⟨fun hlt => ?_, fun hgt => ?_, fun heq => ?_⟩
  · simp only [check_pruning, if_pos hlt]
    by_cases h : pos_bound E M < E.TARGET_SUM - E.tol
    · simp [h, not_le.mpr h]
    · simp [h, not_lt.mp h]
  · have hnlt : ¬ s < E.TARGET_SUM := not_lt.mpr (le_of_lt hgt)
    simp only [check_pruning, if_neg hnlt, if_pos hgt]
    by_cases h : neg_bound E M > E.TARGET_SUM + E.tol
    · simp [h, not_le.mpr h]
    · simp [h, not_lt.mp h]
  · subst heq
    simp [check_pruning]

/-- Witness for `check_pruning_spec` at a concrete engine, discharging each
hypothesis on a concrete mask and sum. -/
theorem check_pruning_spec_witness :
    ((-1 : ℚ) < (2:ℚ) ∧
      (check_pruning ⟨[0], [[0, 0]], [1], [5, -1], 2, 0, false, false⟩ [true, true] (-1) = true
        ↔ (2:ℚ) - 0 ≤ pos_bound ⟨[0], [[0, 0]], [1], [5, -1], 2, 0, false, false⟩ [true, true]))
    ∧ ((4 : ℚ) > (2:ℚ) ∧
      (check_pruning ⟨[0], [[0, 0]], [1], [5, -1], 2, 0, false, false⟩ [true, true] 4 = true
        ↔ neg_bound ⟨[0], [[0, 0]], [1], [5, -1], 2, 0, false, false⟩ [true, true] ≤ (2:ℚ) + 0))
    ∧ ((2 : ℚ) = (2:ℚ) ∧
      check_pruning ⟨[0], [[0, 0]], [1], [5, -1], 2, 0, false, false⟩ [true, true] 2 = true) :=
  ⟨⟨by norm_num, (check_pruning_spec _ _ _).1 (by norm_num)⟩,
   ⟨by norm_num, (check_pruning_spec _ _ _).2.1 (by norm_num)⟩,
   ⟨rfl, (check_pruning_spec _ _ _).2.2 rfl⟩⟩

/-- C9: the bound evaluator never prunes a state whose actual masked sum
already matches the target: if `s = Σ A[M]` and `|s − T| ≤ ε` then
`check_pruning M s` returns `True`. -/
theorem check_pruning_of_match (E : Eng) (M : List Bool) (s : ℚ)
    (hs : s = masked_sum E.value_array M)
    (hmatch : |s - E.TARGET_SUM| ≤ E.tol) : check_pruning E M s = true := by
  rcases abs_le.mp hmatch with ⟨hlo, hhi⟩
  rcases lt_trichotomy s E.TARGET_SUM with hlt | heq | hgt
  · refine ((check_pruning_spec E M s).1 hlt).mpr ?_
    have h1 : E.TARGET_SUM - E.tol ≤ s := by linarith
    have h2 : s ≤ pos_bound E M := by
      rw [hs]; exact masked_sum_le_pos_part E.value_array M
    linarith
  · exact (check_pruning_spec E M s).2.2 heq
  · refine ((check_pruning_spec E M s).2.1 hgt).mpr ?_
    have h1 : s ≤ E.TARGET_SUM + E.tol := by linarith
    have h2 : neg_bound E M ≤ s := by
      rw [hs]; exact neg_part_le_masked_sum E.value_array M
    linarith

/-- Witness for `check_pruning_of_match`: a concrete matching state is not
pruned. -/
theorem check_pruning_of_match_witness :
    ((2 : ℚ) = masked_sum [5, -2, 4, -3] [false, true, true, false]
      ∧ |(2:ℚ) - 2| ≤ (0:ℚ))
    ∧ check_pruning ⟨[0], [[0, 0, 0, 0]], [1], [5, -2, 4, -3], 2, 0, false, false⟩
        [false, true, true, false] 2 = true :=
  ⟨⟨by norm_num [masked_sum], by norm_num⟩,
    check_pruning_of_match _ _ _ (by norm_num [masked_sum]) (by norm_num)⟩

/-- Counterexample to C3 as stated: for the state with rule `{col 0 ↦ {0}}`
and current mask `[true, false]` (exactly the rows selected by that rule),
the code's mirror rule complements within the full global category set and
returns `{col 0 ↦ {1}}`, while the claimed available-under-mask complement
would be `{col 0 ↦ {}}`. -/
theorem mirror_rule_claimC3_counterexample :
    mirror_rule engTwoCats [(0, [0])] = [(0, [1])]
    ∧ mirror_rule_claimC3 engTwoCats [true, false] [(0, [0])] = [(0, [])]
    ∧ mirror_rule engTwoCats [(0, [0])]
        ≠ mirror_rule_claimC3 engTwoCats [true, false] [(0, [0])] := by
  refine ⟨by decide, by decide, by decide⟩

/-- `getD` of a mapped list at an index inside the list. -/
theorem getD_map_lt {α β : Type} (f : α → β) (l : List α) (i : ℕ)
    (h : i < l.length) (d : α) (d' : β) :
    (l.map f).getD i d' = f (l.getD i d) := by
  induction l generalizing i with
  | nil => simp at h
  | cons x xs ih =>
    cases i with
    | zero => simp [List.getD]
    | succ j =>
      have hj : j < xs.length := by simpa using h
      simpa [List.getD] using ih j hj

/-- C3 amended: for every engine and non-empty rule, the mirror rule keeps the
length, the column order and all entries other than the last-inserted column,
and replaces the last-inserted column's category set by its complement within
that column's FULL global category set (`all_categories[col]`, i.e. all ids
below the column's category count). -/
theorem mirror_rule_amended (E : Eng) (rule : Rule) (h : rule ≠ []) :
    (mirror_rule E rule).length = rule.length
    ∧ (∀ i, i < rule.length →
        ((mirror_rule E rule).getD i (0, [])).1 = (rule.getD i (0, [])).1)
    ∧ (∀ i, i < rule.length → (rule.getD i (0, [])).1 ≠ (rule.getLast h).1 →
        (mirror_rule E rule).getD i (0, []) = rule.getD i (0, []))
    ∧ (∀ i, i < rule.length → (rule.getD i (0, [])).1 = (rule.getLast h).1 →
        ∀ c, c ∈ ((mirror_rule E rule).getD i (0, [])).2 ↔
          (c < E.catCounts.getD (rule.getLast h).1 0 ∧ c ∉ (rule.getD i (0, [])).2)) := by
  have hlast : rule.getLast? = some (rule.getLast h) := List.getLast?_eq_getLast rule h
  have hm : mirror_rule E rule = rule.map (fun e =>
      if e.1 = (rule.getLast h).1 then
        (e.1, (allCatsList E e.1).filter (fun c => !(e.2.contains c)))
      else e) := by
    unfold mirror_rule
    rw [hlast]
  refine ⟨by rw [hm]; simp, fun i hi => ?_, fun i hi hne => ?_, fun i hi heq c => ?_⟩
  · rw [hm, getD_map_lt _ _ _ hi (0, [])]
    split <;> rfl
  · rw [hm, getD_map_lt _ _ _ hi (0, []), if_neg hne]
  · rw [hm, getD_map_lt _ _ _ hi (0, []), if_pos heq]
    have heq' : (rule[i]?.getD (0, [])).1 = (List.getLast rule h).1 := by
      rw [← List.getD_eq_getElem?_getD]; exact heq
    simp [allCatsList, List.mem_filter, List.mem_range, heq']

/-- Witness for `mirror_rule_amended` at the concrete engine `engTwoCats` with
rule `{col 0 ↦ {0}}`: length is preserved and category 1 (but not 0) belongs
to the mirrored set, being the global complement of `{0}` among two
categories. -/
theorem mirror_rule_amended_witness :
    (mirror_rule engTwoCats [(0, [0])]).length = [((0:ℕ), [(0:ℕ)])].length
    ∧ (1 ∈ ((mirror_rule engTwoCats [(0, [0])]).getD 0 (0, [])).2
        ↔ (1 < engTwoCats.catCounts.getD ([((0:ℕ), [(0:ℕ)])].getLast (by decide)).1 0
            ∧ 1 ∉ ([((0:ℕ), [(0:ℕ)])].getD 0 (0, [])).2)) :=
  ⟨(mirror_rule_amended engTwoCats [(0, [0])] (by decide)).1,
   (mirror_rule_amended engTwoCats [(0, [0])] (by decide)).2.2.2 0 (by decide) (by decide) 1⟩

/-- One registration attempt preserves the registry invariant. -/
theorem register_solution_regInv (E : Eng) (complete : Rule) (s : ℚ)
    (reg : Registry) (h : RegInv reg) :
    RegInv (register_solution E complete s reg).1 := by
  obtain ⟨hnd, hids⟩ := h
  unfold register_solution
  by_cases hin : fingerprint_of E complete ∈ reg.maskMap.map Prod.fst
  · simpa [hin] using ⟨hnd, hids⟩
  · refine ⟨?_, ?_⟩ <;> simp only [hin, if_neg, if_false, reduceIte]
    · simpa [List.nodup_append, hnd] using hin
    · simp only [List.map_append, List.map_cons, List.map_nil, hids]
      rw [List.range'_concat]
      simp [Nat.add_comm]

/-- C4: starting from the empty registry, after any sequence of registration
attempts the fingerprints in `solution_mask_map` are pairwise distinct and the
assigned ids are exactly `1..counter` in insertion order; an attempt whose
fingerprint is already present is rejected and leaves the registry unchanged;
an attempt with a fresh fingerprint is accepted and receives the next id
`counter + 1`. -/
theorem registry_dedup_and_ids (E : Eng) :
    (∀ inputs : List (Rule × ℚ),
        ((applyRegs E inputs initRegistry).maskMap.map Prod.fst).Nodup
        ∧ (applyRegs E inputs initRegistry).maskMap.map Prod.snd
            = List.range' 1 (applyRegs E inputs initRegistry).counter)
    ∧ (∀ (reg : Registry) (complete : Rule) (s : ℚ),
        fingerprint_of E complete ∈ reg.maskMap.map Prod.fst →
        register_solution E complete s reg = (reg, false))
    ∧ (∀ (reg : Registry) (complete : Rule) (s : ℚ),
        fingerprint_of E complete ∉ reg.maskMap.map Prod.fst →
        (register_solution E complete s reg).2 = true
        ∧ (register_solution E complete s reg).1.counter = reg.counter + 1
        ∧ (register_solution E complete s reg).1.maskMap
            = reg.maskMap ++ [(fingerprint_of E complete, reg.counter + 1)]) := by
  refine ⟨fun inputs => ?_, fun reg complete s hin => ?_, fun reg complete s hout => ?_⟩
  · have : ∀ (l : List (Rule × ℚ)) (reg : Registry), RegInv reg →
        RegInv (applyRegs E l reg) := by
      intro l
      induction l with
      | nil => intro reg h; exact h
      | cons a l ih =>
        intro reg h
        exact ih _ (register_solution_regInv E a.1 a.2 reg h)
    exact this inputs initRegistry ⟨List.nodup_nil, rfl⟩
  · simp [register_solution, hin]
  · refine ⟨?_, ?_, ?_⟩ <;> simp [register_solution, hout]

/-- Witness for `registry_dedup_and_ids`: a concrete fresh registration is
accepted with id 1, and re-registering the same fingerprint is rejected. -/
theorem registry_dedup_and_ids_witness :
    ((register_solution engTwoCats [(0, [0])] 1 initRegistry).2 = true
      ∧ (register_solution engTwoCats [(0, [0])] 1 initRegistry).1.counter = initRegistry.counter + 1
      ∧ (register_solution engTwoCats [(0, [0])] 1 initRegistry).1.maskMap
          = initRegistry.maskMap ++ [(fingerprint_of engTwoCats [(0, [0])], initRegistry.counter + 1)])
    ∧ register_solution engTwoCats [(0, [0])] 1
          (register_solution engTwoCats [(0, [0])] 1 initRegistry).1
        = ((register_solution engTwoCats [(0, [0])] 1 initRegistry).1, false) :=
  ⟨(registry_dedup_and_ids engTwoCats).2.2 initRegistry [(0, [0])] 1 (by decide),
   (registry_dedup_and_ids engTwoCats).2.1 _ [(0, [0])] 1 (by decide)⟩

/-- `Int.log` of a positive rational is unchanged by casting the rational into
the reals. -/
theorem intLog_ratCast_real (q : ℚ) (hq : 0 < q) :
    Int.log 10 ((q : ℝ)) = Int.log 10 q := by
  have hq' : (0:ℝ) < (q : ℝ) := by exact_mod_cast hq
  apply le_antisymm
  · rw [← Int.zpow_le_iff_le_log (by norm_num) hq]
    have h := Int.zpow_log_le_self (b := 10) (R := ℝ) (by norm_num) hq'
    have h2 : (((10:ℚ) ^ Int.log 10 (q : ℝ) : ℚ) : ℝ) ≤ ((q : ℚ) : ℝ) := by
      push_cast at h ⊢
      exact h
    exact_mod_cast Rat.cast_le.mp h2
  · rw [← Int.zpow_le_iff_le_log (by norm_num) hq']
    have h := Int.zpow_log_le_self (b := 10) (R := ℚ) (by norm_num) hq
    have h2 := (Rat.cast_le (K := ℝ)).mpr h
    push_cast at h2 ⊢
    exact h2

/-- C8: every message appended by `register_solution` uses
`amount_decimal_places` digits for the sum, and that digit count equals the
spec's formula: `max(2, -⌊log₁₀ ε⌋)` digits for tolerance `ε > 0` and `2`
digits when `ε = 0` (or negative). -/
theorem solution_message_precision :
    (∀ (E : Eng) (complete : Rule) (s : ℚ) (reg : Registry)
        (m : ℕ × ℚ × ℕ), m ∈ (register_solution E complete s reg).1.messages →
        m ∈ reg.messages ∨ m.2.2 = amount_decimal_places E.tol)
    ∧ (∀ tol : ℚ, (amount_decimal_places tol : ℤ)
        = if 0 < tol then max 2 (-⌊Real.logb 10 (tol : ℝ)⌋) else 2) := by
  constructor
  · intro E complete s reg m hm
    unfold register_solution at hm
    by_cases hin : fingerprint_of E complete ∈ reg.maskMap.map Prod.fst
    · simp only [hin, if_pos, reduceIte] at hm
      exact Or.inl hm
    · simp only [hin, if_neg, if_false, reduceIte, List.mem_append,
        List.mem_singleton] at hm
      rcases hm with hm | hm
      · exact Or.inl hm
      · subst hm; exact Or.inr rfl
  · intro tol
    by_cases h0 : 0 < tol
    · have hn0 : ¬ tol ≤ 0 := not_le.mpr h0
      have h0' : (0:ℝ) ≤ (tol : ℝ) := by positivity
      rw [if_pos h0]
      unfold amount_decimal_places
      rw [if_neg hn0,
        Int.toNat_of_nonneg (le_trans (by norm_num) (le_max_left 2 (-Int.log 10 tol))),
        show (10:ℝ) = ((10:ℕ):ℝ) from by norm_num, Real.floor_logb_natCast h0',
        intLog_ratCast_real tol h0]
    · have h0' : tol ≤ 0 := not_lt.mp h0
      rw [if_neg h0]
      unfold amount_decimal_places
      rw [if_pos h0']
      rfl

/-- Witness for `solution_message_precision`: the single message produced by
a concrete accepted registration carries the decimal-place count of the
engine's tolerance. -/
theorem solution_message_precision_witness :
    ((1, (1:ℚ), 2) ∈ (register_solution engTwoCats [(0, [0])] 1 initRegistry).1.messages
      → ((1, (1:ℚ), 2) ∈ initRegistry.messages
          ∨ ((1:ℕ), (1:ℚ), (2:ℕ)).2.2 = amount_decimal_places engTwoCats.tol))
    ∧ ((1, (1:ℚ), 2) ∈ initRegistry.messages
        ∨ ((1:ℕ), (1:ℚ), (2:ℕ)).2.2 = amount_decimal_places engTwoCats.tol) :=
  ⟨solution_message_precision.1 engTwoCats [(0, [0])] 1 initRegistry (1, 1, 2),
   solution_message_precision.1 engTwoCats [(0, [0])] 1 initRegistry (1, 1, 2) (by decide)⟩

/-- Any fuel at least `2 * |curr| + 1 - i` makes `rec_gen` independent of the
fuel: the embedded recursion equals the Python recursion. -/
theorem rec_gen_fuel_stable (E : Eng) (col : ℕ) (cm : List Bool)
    (avail : List ℕ) (gt : ℚ) :
    ∀ (fuel fuel' : ℕ) (curr : List ℕ) (i : ℕ),
      2 * curr.length + 1 - i ≤ fuel → 2 * curr.length + 1 - i ≤ fuel' →
      rec_gen E col cm avail gt fuel curr i = rec_gen E col cm avail gt fuel' curr i := by
  intro fuel
  induction fuel using Nat.strong_induction_on with
  | _ fuel ih =>
    intro fuel' curr i hf hf'
    match fuel, fuel' with
    | 0, 0 => rfl
    | 0, f' + 1 =>
      have hi : ¬ i < curr.length := by omega
      simp only [rec_gen, if_neg hi]
    | f + 1, 0 =>
      have hi : ¬ i < curr.length := by omega
      simp only [rec_gen, if_neg hi]
    | f + 1, f' + 1 =>
      simp only [rec_gen]
      by_cases h : i < curr.length
      · simp only [if_pos h]
        have hnc : (curr.eraseIdx i).length = curr.length - 1 :=
          List.length_eraseIdx_of_lt h
        have h1 : rec_gen E col cm avail gt f (curr.eraseIdx i) i
            = rec_gen E col cm avail gt f' (curr.eraseIdx i) i := by
          apply ih f (by omega) f' (curr.eraseIdx i) i <;> omega
        have h2 : rec_gen E col cm avail gt f curr (i + 1)
            = rec_gen E col cm avail gt f' curr (i + 1) := by
          apply ih f (by omega) f' curr (i + 1) <;> omega
        rw [h1, h2]
      · simp only [if_neg h]

/-- C2 fails on the code: for the original-mode generator invoked on `badEng`
for column 1 with available categories `{0, 1}` and parent mask
`[true, true, true, false]` (the state reached by branching on column 0 with
subset `{0}`), the mirror yield `({0}, [true, false, false, false], 2)`
carries sum `2 = global_total − candidate_sum`, but the amount sum over the
yielded mask is `5`: the yielded sum is not `Σ A[mask]`. -/
theorem generator_mirror_sum_mismatch :
    (([0], ([true, false, false, false], (2:ℚ))) ∈
        generate_candidate_subsets_pruned_original badEng 1 [0, 1] [true, true, true, false])
    ∧ masked_sum badEng.value_array [true, false, false, false] = 5
    ∧ (2:ℚ) ≠ masked_sum badEng.value_array [true, false, false, false] :=
  ⟨by decide, by decide, by decide⟩

/-- C1 fails on the code: the sequential run of `search` on `badEng`
terminates (the final BFS level is empty) with exactly three registered
solutions, among them solution 2 with row-set fingerprint `[0]`.  The amounts
of the rows selected by that solution's mask sum to `5`, while the target is
`2` and the tolerance `0`: the engine registered a solution whose selected
rows are off target by `3`.  The registration comes from a mirror yield whose
sum the generator derived as `global_total - candidate_sum` under a parent
mask that excludes row 3. -/
theorem search_registers_offtarget_solution :
    (search badEng 5).1 = []
    ∧ (search badEng 5).2.reg.maskMap = [([1, 2], 1), ([0], 2), ([0, 3], 3)]
    ∧ (([0], 2) ∈ (search badEng 5).2.reg.maskMap)
    ∧ (([0] : List ℕ).map (fun i => badEng.value_array.getD i 0)).sum = 5
    ∧ ¬ (|(5 : ℚ) - badEng.TARGET_SUM| ≤ badEng.tol) := by
  refine ⟨by decide, by decide, by decide, by decide, by decide⟩

/-- Counterexample to C6 as stated: with a level `[0, 1]` whose first state
raises, the driver's collection returns the error — the exception propagates
out of the level instead of being swallowed with an empty child list, and the
level is not an `.ok` result of the surviving states. -/
theorem worker_error_propagates_counterexample :
    run_level_exc raising_task [0, 1] = Except.error "state failed"
    ∧ run_level_exc raising_task [0, 1] ≠ Except.ok [] := by
  have h1 : run_level_exc raising_task [0, 1] = Except.error "state failed" := rfl
  refine ⟨h1, ?_⟩
  rw [h1]
  intro h
  exact Except.noConfusion h

/-- C6 amended: an exception raised while processing a BFS state propagates
out of the worker task: `process_state` has no handler, and the driver's
`fut.result()` loop re-raises the first error (in submission order), so the
level's children are discarded and the BFS aborts (the error is caught and
reported only by the outer worker wrappers).  Formally: if every state before
position `k` succeeds and the state at `k` raises `e`, the level's collection
returns `error e`. -/
theorem worker_error_propagates {σ ε : Type} (f : σ → Except ε (List σ))
    (pre post : List σ) (s : σ) (e : ε)
    (hpre : ∀ t ∈ pre, ∃ l, f t = Except.ok l) (hs : f s = Except.error e) :
    run_level_exc f (pre ++ s :: post) = Except.error e := by
  induction pre with
  | nil => simp [run_level_exc, collect_level_results, hs]
  | cons t ts ih =>
    obtain ⟨l, hl⟩ := hpre t (List.mem_cons_self t ts)
    have hrest : run_level_exc f (ts ++ s :: post) = Except.error e :=
      ih (fun u hu => hpre u (List.mem_cons_of_mem t hu))
    simp only [run_level_exc, List.map_cons, collect_level_results, hl,
      List.cons_append] at hrest ⊢
    rw [hrest]

/-- Witness for `worker_error_propagates` at the concrete raising task, with
state `1` succeeding before the failing state `0`. -/
theorem worker_error_propagates_witness :
    run_level_exc raising_task ([1] ++ 0 :: [1]) = Except.error "state failed" :=
  worker_error_propagates raising_task [1] [1] 0 "state failed"
    (fun t ht => by
      refine ⟨[], ?_⟩
      have h1 : t = 1 := by simpa using ht
      rw [h1]; rfl)
    (by rfl)

theorem lookup_eq_some_mem {p : PMap} {x v : String} (h : p.lookup x = some v) :
    (x, v) ∈ p := by
  induction p with
  | nil => simp [List.lookup] at h
  | cons e rest ih =>
    rw [List.lookup] at h
    by_cases hx : x = e.1
    · rw [show (x == e.1) = true from beq_iff_eq.mpr hx] at h
      simp only [Option.some.injEq] at h
      subst h; subst hx
      exact List.mem_cons_self _ _
    · rw [show (x == e.1) = false from beq_eq_false_iff_ne.mpr hx] at h
      exact List.mem_cons_of_mem _ (ih h)

theorem lookup_isSome_of_mem {p : PMap} {x : String} (h : x ∈ keysP p) :
    (p.lookup x).isSome := by
  induction p with
  | nil => simp [keysP] at h
  | cons e rest ih =>
    rw [List.lookup]
    by_cases hx : x = e.1
    · rw [show (x == e.1) = true from beq_iff_eq.mpr hx]; rfl
    · rw [show (x == e.1) = false from beq_eq_false_iff_ne.mpr hx]
      refine ih ?_
      simp only [keysP, List.map_cons, List.mem_cons] at h
      exact h.resolve_left hx

theorem lookup_eq_none_of_not_mem {p : PMap} {x : String} (h : x ∉ keysP p) :
    p.lookup x = none := by
  cases hl : p.lookup x with
  | none => rfl
  | some v => exact absurd (List.mem_map_of_mem Prod.fst (lookup_eq_some_mem hl)) h

theorem lookup_setP (p : PMap) (x v y : String) :
    (setP p x v).lookup y = if y = x then some v else p.lookup y := by
  induction p with
  | nil =>
    by_cases hy : y = x
    · simp [setP, List.lookup, hy]
    · simp [setP, List.lookup, hy, show (y == x) = false from beq_eq_false_iff_ne.mpr hy]
  | cons e rest ih =>
    obtain ⟨k, w⟩ := e
    by_cases hk : k = x
    · subst hk
      by_cases hy : y = k
      · simp [setP, List.lookup, hy]
      · simp [setP, List.lookup, hy,
          show (y == k) = false from beq_eq_false_iff_ne.mpr hy]
    · simp only [setP, if_neg hk]
      by_cases hy : y = k
      · subst hy
        have hyx : ¬ y = x := fun h => hk (h ▸ rfl) |>.elim
        simp [List.lookup, hyx]
      · simp only [List.lookup,
          show (y == k) = false from beq_eq_false_iff_ne.mpr hy]
        exact ih

theorem pstep_setP (p : PMap) (x v y : String) :
    pstep (setP p x v) y = if y = x then v else pstep p y := by
  unfold pstep
  rw [lookup_setP]
  by_cases hy : y = x <;> simp [hy]

theorem keysP_setP_mem {p : PMap} {x : String} (v : String) (h : x ∈ keysP p) :
    keysP (setP p x v) = keysP p := by
  induction p with
  | nil => simp [keysP] at h
  | cons e rest ih =>
    obtain ⟨k, w⟩ := e
    by_cases hk : k = x
    · simp [setP, hk, keysP]
    · simp only [keysP, List.map_cons, List.mem_cons] at h
      have hx : x ∈ keysP rest := h.resolve_left (fun hh => hk hh.symm)
      have hih := ih hx
      simp only [keysP] at hih
      simp [setP, hk, keysP, hih]

theorem keysP_setP_not_mem {p : PMap} {x : String} (v : String) (h : x ∉ keysP p) :
    keysP (setP p x v) = keysP p ++ [x] := by
  induction p with
  | nil => simp [setP, keysP]
  | cons e rest ih =>
    obtain ⟨k, w⟩ := e
    simp only [keysP, List.map_cons, List.mem_cons] at h
    push_neg at h
    have hih := ih h.2
    simp only [keysP] at hih
    simp [setP, Ne.symm h.1, keysP, hih]

theorem chase_add (p : PMap) (n m : ℕ) (x : String) :
    chase p (n + m) x = chase p m (chase p n x) := by
  induction n generalizing x with
  | zero => simp [chase]
  | succ k ih =>
    have : k + 1 + m = (k + m) + 1 := by omega
    rw [this, chase, chase, ih]

theorem chase_root (p : PMap) {r : String} (h : isRootP p r) (n : ℕ) :
    chase p n r = r := by
  induction n with
  | zero => rfl
  | succ k ih => rw [chase, h, ih]

theorem chase_stable (p : PMap) {n m : ℕ} {x : String}
    (h : isRootP p (chase p n x)) (hnm : n ≤ m) :
    chase p m x = chase p n x := by
  obtain ⟨k, rfl⟩ := Nat.le.dest hnm
  rw [chase_add, chase_root p h]

theorem chase_congr {p q : PMap} (h : ∀ y, pstep p y = pstep q y) (n : ℕ)
    (x : String) : chase p n x = chase q n x := by
  induction n generalizing x with
  | zero => rfl
  | succ k ih => rw [chase, chase, h, ih]

theorem nrP_le_length (p : PMap) : nrP p ≤ p.length :=
  List.length_filter_le _ p

theorem rootD_isRoot {p : PMap} (h : InvP p) (x : String) :
    isRootP p (rootD p x) := h x

theorem rootD_of_rooted {p : PMap} (hp : InvP p) {n : ℕ} {x : String}
    (h : isRootP p (chase p n x)) : chase p n x = rootD p x := by
  rcases le_total n (nrP p) with hle | hle
  · exact (chase_stable p h hle).symm
  · exact chase_stable p (hp x) hle

theorem rootD_eq_self {p : PMap} (hp : InvP p) {x : String}
    (h : isRootP p x) : rootD p x = x := by
  have : chase p 0 x = rootD p x := rootD_of_rooted hp (by simpa [chase] using h)
  simpa [chase] using this.symm

theorem rootD_pstep {p : PMap} (hp : InvP p) (x : String) :
    rootD p (pstep p x) = rootD p x := by
  have h1 : isRootP p (chase p (nrP p + 1) x) := by
    rw [chase_stable p (hp x) (Nat.le_succ _)]
    exact hp x
  have h2 : chase p (nrP p + 1) x = rootD p x := rootD_of_rooted hp h1
  have h3 : chase p (nrP p + 1) x = chase p (nrP p) (pstep p x) := rfl
  rw [← h2, h3]
  rfl

theorem nrP_cons (e : String × String) (l : PMap) :
    nrP (e :: l) = (if e.2 = e.1 then 0 else 1) + nrP l := by
  by_cases h : e.2 = e.1
  · simp [nrP, List.filter_cons, h]
  · simp [nrP, List.filter_cons, h, Nat.add_comm]

theorem mem_of_pstep_ne {p : PMap} {x : String} (h : pstep p x ≠ x) :
    x ∈ keysP p := by
  by_contra hx
  rw [pstep, lookup_eq_none_of_not_mem hx] at h
  exact h rfl

theorem pstep_head {k w : String} {rest : PMap} : pstep ((k, w) :: rest) k = w := by
  simp [pstep, List.lookup]

theorem pstep_tail {k w x : String} {rest : PMap} (h : x ≠ k) :
    pstep ((k, w) :: rest) x = pstep rest x := by
  simp [pstep, List.lookup, show (x == k) = false from beq_eq_false_iff_ne.mpr h]

theorem nrP_setP_nonroot {p : PMap} (hnd : (keysP p).Nodup) {x v : String}
    (hx : pstep p x ≠ x) (hv : v ≠ x) : nrP (setP p x v) = nrP p := by
  induction p with
  | nil => exact absurd rfl hx
  | cons e rest ih =>
    obtain ⟨k, w⟩ := e
    by_cases hk : k = x
    · subst hk
      have hw : pstep ((k, w) :: rest) k = w := pstep_head
      rw [hw] at hx
      have hset : setP ((k, w) :: rest) k v = (k, v) :: rest := by simp [setP]
      rw [hset, nrP_cons, nrP_cons]
      simp [hv, hx]
    · have hxk : x ≠ k := fun h => hk h.symm
      rw [pstep_tail hxk] at hx
      have hnd' : (keysP rest).Nodup := by
        simpa [keysP] using hnd.of_cons
      have hset : setP ((k, w) :: rest) x v = (k, w) :: setP rest x v := by
        simp [setP, hk]
      rw [hset, nrP_cons, nrP_cons, ih hnd' hx]

theorem nrP_setP_root {p : PMap} (hnd : (keysP p).Nodup) {x v : String}
    (hmem : x ∈ keysP p) (hroot : pstep p x = x) (hv : v ≠ x) :
    nrP (setP p x v) = nrP p + 1 := by
  induction p with
  | nil => simp [keysP] at hmem
  | cons e rest ih =>
    obtain ⟨k, w⟩ := e
    by_cases hk : k = x
    · subst hk
      have hw : pstep ((k, w) :: rest) k = w := pstep_head
      rw [hw] at hroot
      have hset : setP ((k, w) :: rest) k v = (k, v) :: rest := by simp [setP]
      rw [hset, nrP_cons, nrP_cons]
      simp [hv, hroot]
      omega
    · have hxk : x ≠ k := fun h => hk h.symm
      rw [pstep_tail hxk] at hroot
      have hnd' : (keysP rest).Nodup := by
        simpa [keysP] using hnd.of_cons
      have hmem' : x ∈ keysP rest := by
        simp only [keysP, List.map_cons, List.mem_cons] at hmem
        exact hmem.resolve_left hxk
      have hset : setP ((k, w) :: rest) x v = (k, w) :: setP rest x v := by
        simp [setP, hk]
      rw [hset, nrP_cons, nrP_cons, ih hnd' hmem' hroot]
      omega

theorem nrP_setP_self {p : PMap} {x : String} (h : x ∉ keysP p) :
    nrP (setP p x x) = nrP p := by
  induction p with
  | nil => simp [setP, nrP, List.filter]
  | cons e rest ih =>
    obtain ⟨k, w⟩ := e
    simp only [keysP, List.map_cons, List.mem_cons] at h
    push_neg at h
    have ihr := ih (by simpa [keysP] using h.2)
    have hset : setP ((k, w) :: rest) x x = (k, w) :: setP rest x x := by
      simp [setP, Ne.symm h.1]
    rw [hset, nrP_cons, nrP_cons, ihr]

theorem mem_setP {p : PMap} {x v : String} {e : String × String}
    (h : e ∈ setP p x v) : e = (x, v) ∨ e ∈ p := by
  induction p with
  | nil => simpa [setP] using h
  | cons hd rest ih =>
    obtain ⟨k, w⟩ := hd
    by_cases hk : k = x
    · subst hk
      have hset : setP ((k, w) :: rest) k v = (k, v) :: rest := by simp [setP]
      rw [hset, List.mem_cons] at h
      rcases h with h1 | h1
      · exact Or.inl h1
      · exact Or.inr (List.mem_cons_of_mem _ h1)
    · have hset : setP ((k, w) :: rest) x v = (k, w) :: setP rest x v := by
        simp [setP, hk]
      rw [hset, List.mem_cons] at h
      rcases h with h1 | h1
      · exact Or.inr (by simp [h1])
      · rcases ih h1 with h' | h'
        · exact Or.inl h'
        · exact Or.inr (List.mem_cons_of_mem _ h')

theorem pstep_mem {p : PMap} (hc : ClosedP p) {x : String} (hx : x ∈ keysP p) :
    pstep p x ∈ keysP p := by
  cases hl : p.lookup x with
  | none => simpa [pstep, hl] using hx
  | some v =>
    have : ((x, v) : String × String).2 ∈ keysP p := hc (x, v) (lookup_eq_some_mem hl)
    simpa [pstep, hl] using this

theorem chase_mem {p : PMap} (hc : ClosedP p) {x : String} (hx : x ∈ keysP p)
    (n : ℕ) : chase p n x ∈ keysP p := by
  induction n generalizing x with
  | zero => exact hx
  | succ k ih => exact ih (pstep_mem hc hx)

theorem chase_succ_rear (p : PMap) (n : ℕ) (x : String) :
    chase p (n + 1) x = pstep p (chase p n x) := by
  rw [chase_add p n 1]
  rfl

theorem pstep_pstep_ne {p : PMap} (hp : InvP p) {x : String}
    (h : pstep p x ≠ x) : pstep p (pstep p x) ≠ x := by
  intro h2
  have halt : ∀ n, chase p n x = x ∨ chase p n x = pstep p x := by
    intro n
    induction n with
    | zero => exact Or.inl rfl
    | succ k ih =>
      rcases ih with hx | hpx
      · rw [chase_succ_rear, hx]
        exact Or.inr rfl
      · rw [chase_succ_rear, hpx, h2]
        exact Or.inl rfl
  have hroot := hp x
  rcases halt (nrP p) with he | he <;> rw [he] at hroot
  · exact h hroot
  · rw [isRootP, h2] at hroot
    exact h hroot.symm

theorem halve_chase {p : PMap} (_hp : InvP p) {x : String} (hx : pstep p x ≠ x) :
    ∀ n, ∀ y, isRootP p (chase p n y) →
      isRootP (setP p x (pstep p (pstep p x)))
        (chase (setP p x (pstep p (pstep p x))) n y)
      ∧ chase (setP p x (pstep p (pstep p x))) n y = chase p n y := by
  have hps : ∀ z, pstep (setP p x (pstep p (pstep p x))) z
      = if z = x then pstep p (pstep p x) else pstep p z :=
    fun z => pstep_setP p x (pstep p (pstep p x)) z
  intro n
  induction n with
  | zero =>
    intro y hy
    have hyx : y ≠ x := fun he => hx (he ▸ hy)
    refine ⟨?_, rfl⟩
    show isRootP _ y
    rw [isRootP, hps, if_neg hyx]
    exact hy
  | succ k ih =>
    intro y hy
    by_cases hroot : pstep p y = y
    · have hyx : y ≠ x := fun he => hx (he ▸ hroot)
      have hroot' : isRootP (setP p x (pstep p (pstep p x))) y := by
        rw [isRootP, hps, if_neg hyx]
        exact hroot
      rw [chase_root _ hroot' (k + 1), chase_root p hroot (k + 1)]
      exact ⟨hroot', rfl⟩
    · by_cases hyx : y = x
      · subst hyx
        have h1 : chase p (k + 1) (pstep p y) = chase p k (pstep p (pstep p y)) := rfl
        have h2 : chase p (k + 1) (pstep p y) = chase p k (pstep p y) :=
          chase_stable p hy (Nat.le_succ k)
        have hyr : isRootP p (chase p k (pstep p (pstep p y))) := by
          rw [← h1, h2]
          exact hy
        obtain ⟨ha, hb⟩ := ih (pstep p (pstep p y)) hyr
        have hstep : chase (setP p y (pstep p (pstep p y))) (k + 1) y
            = chase (setP p y (pstep p (pstep p y))) k (pstep p (pstep p y)) := by
          rw [chase, hps, if_pos rfl]
        refine ⟨?_, ?_⟩
        · rw [hstep]
          exact ha
        · rw [hstep, hb, ← h1, h2]
          rfl
      · have hstep' : pstep (setP p x (pstep p (pstep p x))) y = pstep p y := by
          rw [hps, if_neg hyx]
        obtain ⟨ha, hb⟩ := ih (pstep p y) hy
        refine ⟨?_, ?_⟩
        · rw [chase, hstep']
          exact ha
        · rw [chase, hstep', hb]
          rfl

theorem halve_spec {p : PMap} (hu : UFInv p) {x : String} (hx : pstep p x ≠ x) :
    UFInv (setP p x (pstep p (pstep p x)))
    ∧ keysP (setP p x (pstep p (pstep p x))) = keysP p
    ∧ nrP (setP p x (pstep p (pstep p x))) = nrP p
    ∧ (∀ y, rootD (setP p x (pstep p (pstep p x))) y = rootD p y) := by
  have hmem : x ∈ keysP p := mem_of_pstep_ne hx
  have hkeys := keysP_setP_mem (v := pstep p (pstep p x)) hmem
  have hppx : pstep p (pstep p x) ≠ x := pstep_pstep_ne hu.inv hx
  have hnr : nrP (setP p x (pstep p (pstep p x))) = nrP p :=
    nrP_setP_nonroot hu.nodup hx hppx
  have hch := halve_chase hu.inv hx
  have hroots : ∀ y, rootD (setP p x (pstep p (pstep p x))) y = rootD p y := by
    intro y
    obtain ⟨_, hb⟩ := hch (nrP p) y (hu.inv y)
    rw [rootD, hnr, hb]
    rfl
  refine ⟨⟨?_, ?_, ?_⟩, hkeys, hnr, hroots⟩
  · intro y
    rw [hnr]
    exact (hch (nrP p) y (hu.inv y)).1
  · intro e he
    rcases mem_setP he with he' | he'
    · subst he'
      rw [hkeys]
      exact pstep_mem hu.closed (pstep_mem hu.closed hmem)
    · rw [hkeys]
      exact hu.closed e he'
  · rw [hkeys]
    exact hu.nodup

theorem findAux_spec : ∀ (fuel : ℕ) (p : PMap) (x : String) (n : ℕ),
    UFInv p → isRootP p (chase p n x) → n ≤ fuel →
    (findAux fuel p x).1 = rootD p x
    ∧ UFInv (findAux fuel p x).2
    ∧ keysP (findAux fuel p x).2 = keysP p
    ∧ nrP (findAux fuel p x).2 = nrP p
    ∧ (∀ y, rootD (findAux fuel p x).2 y = rootD p y) := by
  intro fuel
  induction fuel with
  | zero =>
    intro p x n hu hroot hn
    have hn0 : n = 0 := Nat.le_zero.mp hn
    subst hn0
    have hx : isRootP p x := hroot
    exact ⟨(rootD_eq_self hu.inv hx).symm, hu, rfl, rfl, fun y => rfl⟩
  | succ fuel ih =>
    intro p x n hu hroot hn
    by_cases hpx : pstep p x = x
    · have hunf : findAux (fuel + 1) p x = (x, p) := by
        simp only [findAux, if_pos hpx]
      rw [hunf]
      exact ⟨(rootD_eq_self hu.inv hpx).symm, hu, rfl, rfl, fun y => rfl⟩
    · obtain ⟨hu', hkeys', hnr', hroots'⟩ := halve_spec hu hpx
      cases n with
      | zero => exact absurd hroot hpx
      | succ m =>
        have hroot' : isRootP p (chase p m (pstep p x)) := hroot
        have hstab : chase p (m + 1) (pstep p x) = chase p m (pstep p x) :=
          chase_stable p hroot' (Nat.le_succ m)
        have hroot'' : isRootP p (chase p m (pstep p (pstep p x))) := by
          have hdef : chase p (m + 1) (pstep p x)
              = chase p m (pstep p (pstep p x)) := rfl
          rw [← hdef, hstab]
          exact hroot'
        obtain ⟨hr1, _⟩ := halve_chase hu.inv hpx m (pstep p (pstep p x)) hroot''
        have hle : m ≤ fuel := by omega
        obtain ⟨ha, hb, hc, hd, he⟩ :=
          ih (setP p x (pstep p (pstep p x))) (pstep p (pstep p x)) m hu' hr1 hle
        have hunf : findAux (fuel + 1) p x
            = findAux fuel (setP p x (pstep p (pstep p x))) (pstep p (pstep p x)) := by
          simp only [findAux, if_neg hpx]
        rw [hunf]
        refine ⟨?_, hb, by rw [hc, hkeys'], by rw [hd, hnr'],
          fun y => by rw [he y, hroots' y]⟩
        rw [ha, hroots' (pstep p (pstep p x)), rootD_pstep hu.inv,
          rootD_pstep hu.inv]

theorem find_spec {p : PMap} (hu : UFInv p) (x : String) :
    (find p x).1 = rootD p x
    ∧ UFInv (find p x).2
    ∧ keysP (find p x).2 = (if x ∈ keysP p then keysP p else keysP p ++ [x])
    ∧ (∀ y, rootD (find p x).2 y = rootD p y) := by
  by_cases hmem : x ∈ keysP p
  · have hsome : (p.lookup x).isSome = true := lookup_isSome_of_mem hmem
    have hfind : find p x = findAux p.length p x := by
      unfold find
      rw [if_pos hsome]
    obtain ⟨ha, hb, hc, _, he⟩ :=
      findAux_spec p.length p x (nrP p) hu (hu.inv x) (nrP_le_length p)
    rw [hfind, if_pos hmem]
    exact ⟨ha, hb, hc, he⟩
  · have hnone : p.lookup x = none := lookup_eq_none_of_not_mem hmem
    have hfind : find p x = findAux (setP p x x).length (setP p x x) x := by
      unfold find
      rw [hnone]
      rfl
    have hps0 : ∀ y, pstep (setP p x x) y = pstep p y := by
      intro y
      rw [pstep_setP]
      by_cases hy : y = x
      · subst hy
        simp [pstep, hnone]
      · rw [if_neg hy]
    have hch0 : ∀ n y, chase (setP p x x) n y = chase p n y :=
      fun n y => chase_congr hps0 n y
    have hnr0 : nrP (setP p x x) = nrP p := nrP_setP_self hmem
    have hkeys0 : keysP (setP p x x) = keysP p ++ [x] := keysP_setP_not_mem x hmem
    have hroot0 : ∀ y, rootD (setP p x x) y = rootD p y := by
      intro y
      rw [rootD, hnr0, hch0]
      rfl
    have hu0 : UFInv (setP p x x) := by
      refine ⟨?_, ?_, ?_⟩
      · intro y
        rw [isRootP, hps0, hnr0, hch0]
        exact hu.inv y
      · intro e he
        rcases mem_setP he with he' | he'
        · subst he'
          rw [hkeys0]
          simp
        · rw [hkeys0]
          exact List.mem_append_left _ (hu.closed e he')
      · rw [hkeys0]
        simp only [List.nodup_append, List.nodup_cons, List.nodup_nil]
        exact ⟨hu.nodup, by simp, by simpa using hmem⟩
    obtain ⟨ha, hb, hc, _, he⟩ :=
      findAux_spec (setP p x x).length (setP p x x) x (nrP (setP p x x)) hu0
        (hu0.inv x) (nrP_le_length _)
    rw [hfind, if_neg hmem]
    refine ⟨by rw [ha, hroot0], hb, by rw [hc, hkeys0],
      fun y => by rw [he y, hroot0]⟩

theorem link_chase {p : PMap} {ra rb : String} (hra : isRootP p ra)
    (hrb : isRootP p rb) (hne : ra ≠ rb) :
    ∀ n, ∀ y, isRootP p (chase p n y) →
      isRootP (setP p ra rb) (chase (setP p ra rb) (n + 1) y)
      ∧ chase (setP p ra rb) (n + 1) y
          = (if chase p n y = ra then rb else chase p n y) := by
  have hps : ∀ z, pstep (setP p ra rb) z = if z = ra then rb else pstep p z :=
    fun z => pstep_setP p ra rb z
  have hrb' : isRootP (setP p ra rb) rb := by
    rw [isRootP, hps, if_neg (Ne.symm hne)]
    exact hrb
  intro n
  induction n with
  | zero =>
    intro y hy
    by_cases hya : y = ra
    · subst hya
      have h1 : chase (setP p y rb) 1 y = rb := by
        show chase (setP p y rb) 0 (pstep (setP p y rb) y) = rb
        rw [hps, if_pos rfl]
        rfl
      rw [h1]
      exact ⟨hrb', by simp [chase]⟩
    · have hy' : isRootP (setP p ra rb) y := by
        rw [isRootP, hps, if_neg hya]
        exact hy
      rw [chase_root _ hy']
      exact ⟨hy', by simp [chase, hya]⟩
  | succ k ih =>
    intro y hy
    by_cases hroot : pstep p y = y
    · have hcy : chase p (k + 1) y = y := chase_root p hroot _
      by_cases hya : y = ra
      · subst hya
        have hstep : chase (setP p y rb) (k + 2) y
            = chase (setP p y rb) (k + 1) rb := by
          rw [chase, hps, if_pos rfl]
        rw [hstep, chase_root _ hrb']
        exact ⟨hrb', by rw [hcy, if_pos rfl]⟩
      · have hy' : isRootP (setP p ra rb) y := by
          rw [isRootP, hps, if_neg hya]
          exact hroot
        rw [chase_root _ hy']
        exact ⟨hy', by rw [hcy, if_neg hya]⟩
    · have hya : y ≠ ra := fun he => hroot (he ▸ hra)
      have hstep : chase (setP p ra rb) (k + 2) y
          = chase (setP p ra rb) (k + 1) (pstep p y) := by
        rw [chase, hps, if_neg hya]
      obtain ⟨hh1, hh2⟩ := ih (pstep p y) hy
      rw [hstep]
      exact ⟨hh1, by rw [hh2]; rfl⟩

theorem link_spec {p : PMap} (hu : UFInv p) {ra rb : String}
    (hra : isRootP p ra) (hrb : isRootP p rb) (hne : ra ≠ rb)
    (hmema : ra ∈ keysP p) (hmemb : rb ∈ keysP p) :
    UFInv (setP p ra rb)
    ∧ keysP (setP p ra rb) = keysP p
    ∧ (∀ y, rootD (setP p ra rb) y = (if rootD p y = ra then rb else rootD p y)) := by
  have hkeys := keysP_setP_mem (v := rb) hmema
  have hnr : nrP (setP p ra rb) = nrP p + 1 :=
    nrP_setP_root hu.nodup hmema hra (Ne.symm hne)
  have hch := link_chase hra hrb hne
  have hroots : ∀ y, rootD (setP p ra rb) y
      = (if rootD p y = ra then rb else rootD p y) := by
    intro y
    obtain ⟨_, hb2⟩ := hch (nrP p) y (hu.inv y)
    rw [rootD, hnr]
    exact hb2
  refine ⟨⟨?_, ?_, ?_⟩, hkeys, hroots⟩
  · intro y
    rw [hnr]
    exact (hch (nrP p) y (hu.inv y)).1
  · intro e he
    rcases mem_setP he with he' | he'
    · subst he'
      rw [hkeys]
      exact hmemb
    · rw [hkeys]
      exact hu.closed e he'
  · rw [hkeys]
    exact hu.nodup

theorem rootD_mem {p : PMap} (hc : ClosedP p) {x : String} (hx : x ∈ keysP p) :
    rootD p x ∈ keysP p := chase_mem hc hx _

theorem union_spec {p : PMap} (hu : UFInv p) {a b : String}
    (ha : a ∈ keysP p) (hb : b ∈ keysP p) :
    UFInv (union p a b)
    ∧ keysP (union p a b) = keysP p
    ∧ (∀ x y, rootD (union p a b) x = rootD (union p a b) y ↔
        (rootD p x = rootD p y
          ∨ (rootD p x = rootD p a ∧ rootD p b = rootD p y)
          ∨ (rootD p x = rootD p b ∧ rootD p a = rootD p y))) := by
  obtain ⟨ha1, hu1, hk1, hr1⟩ := find_spec hu a
  obtain ⟨hb1, hu2, hk2, hr2⟩ := find_spec hu1 b
  rw [if_pos ha] at hk1
  have hbk1 : b ∈ keysP (find p a).2 := by rw [hk1]; exact hb
  rw [if_pos hbk1] at hk2
  have hkeys2 : keysP (find (find p a).2 b).2 = keysP p := by rw [hk2, hk1]
  have hroots2 : ∀ y, rootD (find (find p a).2 b).2 y = rootD p y := by
    intro y
    rw [hr2 y, hr1 y]
  have hfb1 : (find (find p a).2 b).1 = rootD p b := by rw [hb1, hr1 b]
  have hunion : union p a b
      = if (find p a).1 ≠ (find (find p a).2 b).1
        then setP (find (find p a).2 b).2 (find p a).1 (find (find p a).2 b).1
        else (find (find p a).2 b).2 := rfl
  by_cases hne : (find p a).1 ≠ (find (find p a).2 b).1
  · have hraeq : (find p a).1 = rootD p a := ha1
    have hner : rootD p a ≠ rootD p b := by
      rw [← hraeq, ← hfb1]
      exact hne
    -- roots of the two classes, seen in the post-find map
    have hisa : isRootP (find (find p a).2 b).2 (rootD p a) := by
      have h1 : rootD (find (find p a).2 b).2 (rootD p a) = rootD p a := by
        rw [hroots2, rootD_eq_self hu.inv (rootD_isRoot hu.inv a)]
      have h2 := rootD_isRoot hu2.inv (rootD p a)
      rw [h1] at h2
      exact h2
    have hisb : isRootP (find (find p a).2 b).2 (rootD p b) := by
      have h1 : rootD (find (find p a).2 b).2 (rootD p b) = rootD p b := by
        rw [hroots2, rootD_eq_self hu.inv (rootD_isRoot hu.inv b)]
      have h2 := rootD_isRoot hu2.inv (rootD p b)
      rw [h1] at h2
      exact h2
    have hmema2 : rootD p a ∈ keysP (find (find p a).2 b).2 := by
      rw [hkeys2]
      exact rootD_mem hu.closed ha
    have hmemb2 : rootD p b ∈ keysP (find (find p a).2 b).2 := by
      rw [hkeys2]
      exact rootD_mem hu.closed hb
    obtain ⟨hu3, hk3, hr3⟩ := link_spec hu2 hisa hisb hner hmema2 hmemb2
    have hun : union p a b
        = setP (find (find p a).2 b).2 (rootD p a) (rootD p b) := by
      rw [hunion, if_pos hne, hraeq, hfb1]
    rw [hun]
    refine ⟨hu3, by rw [hk3, hkeys2], fun x y => ?_⟩
    have hx3 : rootD (setP (find (find p a).2 b).2 (rootD p a) (rootD p b)) x
        = (if rootD p x = rootD p a then rootD p b else rootD p x) := by
      rw [hr3 x, hroots2 x]
    have hy3 : rootD (setP (find (find p a).2 b).2 (rootD p a) (rootD p b)) y
        = (if rootD p y = rootD p a then rootD p b else rootD p y) := by
      rw [hr3 y, hroots2 y]
    rw [hx3, hy3]
    by_cases hx : rootD p x = rootD p a <;> by_cases hy : rootD p y = rootD p a
    · simp only [if_pos hx, if_pos hy]
      constructor
      · intro _
        exact Or.inl (hx.trans hy.symm)
      · intro _
        trivial
    · simp only [if_pos hx, if_neg hy]
      constructor
      · intro h
        exact Or.inr (Or.inl ⟨hx, h⟩)
      · rintro (h | ⟨h1, h2⟩ | ⟨h1, h2⟩)
        · exact absurd (h ▸ hx : rootD p y = rootD p a) hy
        · exact h2
        · exact absurd h2.symm hy
    · simp only [if_neg hx, if_pos hy]
      constructor
      · intro h
        exact Or.inr (Or.inr ⟨h, hy.symm⟩)
      · rintro (h | ⟨h1, h2⟩ | ⟨h1, h2⟩)
        · exact absurd (h.symm ▸ hy : rootD p x = rootD p a) hx
        · exact absurd h1 hx
        · exact h1
    · simp only [if_neg hx, if_neg hy]
      constructor
      · intro h
        exact Or.inl h
      · rintro (h | ⟨h1, h2⟩ | ⟨h1, h2⟩)
        · exact h
        · exact absurd h1 hx
        · exact absurd h2.symm hy
  · push_neg at hne
    have hun : union p a b = (find (find p a).2 b).2 := by
      rw [hunion, if_neg (by simpa using hne)]
    have hab : rootD p a = rootD p b := by
      rw [← ha1, ← hfb1, hne]
    rw [hun]
    refine ⟨hu2, hkeys2, fun x y => ?_⟩
    rw [hroots2 x, hroots2 y]
    constructor
    · intro h
      exact Or.inl h
    · rintro (h | ⟨h1, h2⟩ | ⟨h1, h2⟩)
      · exact h
      · exact h1.trans (hab.trans h2)
      · exact h1.trans (hab.symm.trans h2)

theorem unionFold_inv : ∀ (ps : List (String × String)) (p : PMap),
    UFInv p → (∀ q ∈ ps, q.1 ∈ keysP p ∧ q.2 ∈ keysP p) →
    UFInv (unionFold ps p) ∧ keysP (unionFold ps p) = keysP p := by
  intro ps
  induction ps with
  | nil => exact fun p hu _ => ⟨hu, rfl⟩
  | cons q rest ih =>
    intro p hu hks
    obtain ⟨hq1, hq2⟩ := hks q (List.mem_cons_self q rest)
    obtain ⟨hu', hk', _⟩ := union_spec hu hq1 hq2
    have hks' : ∀ r ∈ rest, r.1 ∈ keysP (union p q.1 q.2) ∧ r.2 ∈ keysP (union p q.1 q.2) := by
      intro r hr
      rw [hk']
      exact hks r (List.mem_cons_of_mem q hr)
    obtain ⟨hu2, hk2⟩ := ih (union p q.1 q.2) hu' hks'
    have hstep : unionFold (q :: rest) p = unionFold rest (union p q.1 q.2) := rfl
    exact ⟨by rw [hstep]; exact hu2, by rw [hstep, hk2, hk']⟩

theorem unionFold_mono : ∀ (ps : List (String × String)) (p : PMap),
    UFInv p → (∀ q ∈ ps, q.1 ∈ keysP p ∧ q.2 ∈ keysP p) →
    ∀ x y, rootD p x = rootD p y →
      rootD (unionFold ps p) x = rootD (unionFold ps p) y := by
  intro ps
  induction ps with
  | nil => exact fun p _ _ x y h => h
  | cons q rest ih =>
    intro p hu hks x y h
    obtain ⟨hq1, hq2⟩ := hks q (List.mem_cons_self q rest)
    obtain ⟨hu', hk', hiff⟩ := union_spec hu hq1 hq2
    have hks' : ∀ r ∈ rest, r.1 ∈ keysP (union p q.1 q.2) ∧ r.2 ∈ keysP (union p q.1 q.2) := by
      intro r hr
      rw [hk']
      exact hks r (List.mem_cons_of_mem q hr)
    exact ih (union p q.1 q.2) hu' hks' x y ((hiff x y).mpr (Or.inl h))

theorem unionFold_pair : ∀ (ps : List (String × String)) (p : PMap),
    UFInv p → (∀ q ∈ ps, q.1 ∈ keysP p ∧ q.2 ∈ keysP p) →
    ∀ q ∈ ps, rootD (unionFold ps p) q.1 = rootD (unionFold ps p) q.2 := by
  intro ps
  induction ps with
  | nil => intro p _ _ q hq; simp at hq
  | cons r rest ih =>
    intro p hu hks q hq
    obtain ⟨hr1, hr2⟩ := hks r (List.mem_cons_self r rest)
    obtain ⟨hu', hk', hiff⟩ := union_spec hu hr1 hr2
    have hks' : ∀ t ∈ rest, t.1 ∈ keysP (union p r.1 r.2) ∧ t.2 ∈ keysP (union p r.1 r.2) := by
      intro t ht
      rw [hk']
      exact hks t (List.mem_cons_of_mem r ht)
    rcases List.mem_cons.mp hq with hq1 | hq1
    · subst hq1
      have hjoined : rootD (union p q.1 q.2) q.1 = rootD (union p q.1 q.2) q.2 :=
        (hiff q.1 q.2).mpr (Or.inr (Or.inl ⟨rfl, rfl⟩))
      exact unionFold_mono rest (union p q.1 q.2) hu' hks' q.1 q.2 hjoined
    · exact ih (union p r.1 r.2) hu' hks' q hq1

theorem unionFold_upper : ∀ (ps : List (String × String)) (p : PMap)
    (C : String → String → Prop),
    UFInv p → (∀ q ∈ ps, q.1 ∈ keysP p ∧ q.2 ∈ keysP p) →
    Transitive C → Symmetric C →
    (∀ x y, rootD p x = rootD p y → C x y) →
    (∀ q ∈ ps, C q.1 q.2) →
    ∀ x y, rootD (unionFold ps p) x = rootD (unionFold ps p) y → C x y := by
  intro ps
  induction ps with
  | nil => exact fun p C _ _ _ _ hbase _ x y h => hbase x y h
  | cons q rest ih =>
    intro p C hu hks htrans hsymm hbase hpairs x y h
    obtain ⟨hq1, hq2⟩ := hks q (List.mem_cons_self q rest)
    obtain ⟨hu', hk', hiff⟩ := union_spec hu hq1 hq2
    have hks' : ∀ r ∈ rest, r.1 ∈ keysP (union p q.1 q.2) ∧ r.2 ∈ keysP (union p q.1 q.2) := by
      intro r hr
      rw [hk']
      exact hks r (List.mem_cons_of_mem q hr)
    have hCq : C q.1 q.2 := hpairs q (List.mem_cons_self q rest)
    have hbase' : ∀ u v, rootD (union p q.1 q.2) u = rootD (union p q.1 q.2) v → C u v := by
      intro u v huv
      rcases (hiff u v).mp huv with h1 | ⟨h1, h2⟩ | ⟨h1, h2⟩
      · exact hbase u v h1
      · exact htrans (htrans (hbase u q.1 h1) hCq) (hbase q.2 v h2)
      · exact htrans (htrans (hbase u q.2 h1) (hsymm hCq)) (hbase q.1 v h2)
    exact ih (union p q.1 q.2) C hu' hks' htrans hsymm hbase'
      (fun r hr => hpairs r (List.mem_cons_of_mem q hr)) x y h

theorem lookup_mem_pairs {α β : Type} [BEq α] [LawfulBEq α]
    {l : List (α × β)} {k : α} {v : β} (h : l.lookup k = some v) : (k, v) ∈ l := by
  induction l with
  | nil => simp [List.lookup] at h
  | cons e rest ih =>
    rw [List.lookup] at h
    by_cases hx : k = e.1
    · rw [show (k == e.1) = true from beq_iff_eq.mpr hx] at h
      simp only [Option.some.injEq] at h
      subst h; subst hx
      exact List.mem_cons_self _ _
    · rw [show (k == e.1) = false from beq_eq_false_iff_ne.mpr hx] at h
      exact List.mem_cons_of_mem _ (ih h)

theorem lookup_append_some {α β : Type} [BEq α] {l1 l2 : List (α × β)} {k : α}
    {c : β} (h : l1.lookup k = some c) : (l1 ++ l2).lookup k = some c := by
  induction l1 with
  | nil => simp [List.lookup] at h
  | cons e rest ih =>
    rw [List.lookup] at h
    rw [List.cons_append, List.lookup]
    cases hk : (k == e.1) with
    | true => rw [hk] at h; exact h
    | false => rw [hk] at h; exact ih h

theorem lookup_append_none {α β : Type} [BEq α] {l1 l2 : List (α × β)} {k : α}
    (h : l1.lookup k = none) : (l1 ++ l2).lookup k = l2.lookup k := by
  induction l1 with
  | nil => rfl
  | cons e rest ih =>
    rw [List.lookup] at h
    rw [List.cons_append, List.lookup]
    cases hk : (k == e.1) with
    | true => rw [hk] at h; exact absurd h (by simp)
    | false => rw [hk] at h; exact ih h

theorem lookup_none_iff_keys {α β : Type} [BEq α] [LawfulBEq α]
    {l : List (α × β)} {k : α} : l.lookup k = none ↔ k ∉ l.map Prod.fst := by
  induction l with
  | nil => simp [List.lookup]
  | cons e rest ih =>
    rw [List.lookup]
    by_cases hx : k = e.1
    · rw [show (k == e.1) = true from beq_iff_eq.mpr hx]
      simp [hx]
    · rw [show (k == e.1) = false from beq_eq_false_iff_ne.mpr hx]
      simp [hx, ih]

theorem lookup_singleton_ne {α β : Type} [BEq α] [LawfulBEq α] {k a : α} {c : β}
    (h : k ≠ a) : ([(a, c)] : List (α × β)).lookup k = none := by
  rw [List.lookup, show (k == a) = false from beq_eq_false_iff_ne.mpr h]
  rfl

theorem mem_inj_of_snd_nodup {l : List (String × ℕ)}
    (h : (l.map Prod.snd).Nodup) {r r' : String} {c : ℕ}
    (m1 : (r, c) ∈ l) (m2 : (r', c) ∈ l) : r = r' := by
  induction l with
  | nil => simp at m1
  | cons e rest ih =>
    simp only [List.map_cons, List.nodup_cons] at h
    rcases List.mem_cons.mp m1 with e1 | e1 <;> rcases List.mem_cons.mp m2 with e2 | e2
    · exact congrArg Prod.fst (e1.trans e2.symm)
    · exfalso
      apply h.1
      have hc : ((r', c) : String × ℕ).2 ∈ rest.map Prod.snd :=
        List.mem_map_of_mem _ e2
      rw [← e1]
      exact hc
    · exfalso
      apply h.1
      have hc : ((r, c) : String × ℕ).2 ∈ rest.map Prod.snd :=
        List.mem_map_of_mem _ e1
      rw [← e2]
      exact hc
    · exact ih h.2 e1 e2

theorem lookup_inj_of_snd_nodup {l : List (String × ℕ)}
    (h : (l.map Prod.snd).Nodup) {r r' : String} {c : ℕ}
    (h1 : l.lookup r = some c) (h2 : l.lookup r' = some c) : r = r' :=
  mem_inj_of_snd_nodup h (lookup_mem_pairs h1) (lookup_mem_pairs h2)

theorem selfP_pstep {p : PMap} (h : SelfP p) (y : String) : pstep p y = y := by
  cases hl : p.lookup y with
  | none => simp [pstep, hl]
  | some v =>
    have hvy : v = y := h (y, v) (lookup_mem_pairs hl)
    simp [pstep, hl, hvy]

theorem selfP_rootD {p : PMap} (h : SelfP p) (y : String) : rootD p y = y := by
  have hroot : isRootP p y := selfP_pstep h y
  rw [rootD, chase_root p hroot]

theorem selfP_ufInv {p : PMap} (h : SelfP p) (hnd : (keysP p).Nodup) :
    UFInv p := by
  refine ⟨?_, ?_, hnd⟩
  · intro x
    rw [chase_root p (selfP_pstep h x)]
    exact selfP_pstep h x
  · intro e he
    rw [h e he]
    exact List.mem_map_of_mem _ he

theorem initFold_aux_spec : ∀ (ids : List String) (p : PMap), SelfP p →
    (keysP p).Nodup →
    SelfP (ids.foldl (fun q u => if (q.lookup u).isSome then q else setP q u u) p)
    ∧ (keysP (ids.foldl (fun q u => if (q.lookup u).isSome then q else setP q u u) p)).Nodup
    ∧ (∀ x, x ∈ keysP (ids.foldl (fun q u => if (q.lookup u).isSome then q else setP q u u) p)
        ↔ x ∈ keysP p ∨ x ∈ ids) := by
  intro ids
  induction ids with
  | nil =>
    intro p hs hnd
    exact ⟨hs, hnd, fun x => by simp⟩
  | cons u rest ih =>
    intro p hs hnd
    by_cases hl : (p.lookup u).isSome = true
    · have hstep : (u :: rest).foldl (fun q v => if (q.lookup v).isSome then q else setP q v v) p
          = rest.foldl (fun q v => if (q.lookup v).isSome then q else setP q v v) p := by
        simp [List.foldl_cons, hl]
      obtain ⟨ha, hb, hc⟩ := ih p hs hnd
      rw [hstep]
      refine ⟨ha, hb, fun x => ?_⟩
      rw [hc x]
      have humem : u ∈ keysP p := by
        obtain ⟨v, hv⟩ := Option.isSome_iff_exists.mp hl
        exact List.mem_map_of_mem _ (lookup_mem_pairs hv)
      constructor
      · rintro (h1 | h1)
        · exact Or.inl h1
        · exact Or.inr (List.mem_cons_of_mem u h1)
      · rintro (h1 | h1)
        · exact Or.inl h1
        · rcases List.mem_cons.mp h1 with h2 | h2
          · exact Or.inl (h2 ▸ humem)
          · exact Or.inr h2
    · have hnmem : u ∉ keysP p := by
        intro hmem
        exact hl (lookup_isSome_of_mem hmem)
      have hstep : (u :: rest).foldl (fun q v => if (q.lookup v).isSome then q else setP q v v) p
          = rest.foldl (fun q v => if (q.lookup v).isSome then q else setP q v v) (setP p u u) := by
        simp [List.foldl_cons, hl]
      have hs' : SelfP (setP p u u) := by
        intro e he
        rcases mem_setP he with he' | he'
        · subst he'; rfl
        · exact hs e he'
      have hkeys' : keysP (setP p u u) = keysP p ++ [u] := keysP_setP_not_mem u hnmem
      have hnd' : (keysP (setP p u u)).Nodup := by
        rw [hkeys']
        simp only [List.nodup_append, List.nodup_cons, List.nodup_nil]
        exact ⟨hnd, by simp, by simpa using hnmem⟩
      obtain ⟨ha, hb, hc⟩ := ih (setP p u u) hs' hnd'
      rw [hstep]
      refine ⟨ha, hb, fun x => ?_⟩
      rw [hc x, hkeys']
      simp only [List.mem_append, List.mem_singleton, List.mem_cons]
      tauto

theorem lookup_singleton_self {α β : Type} [BEq α] [LawfulBEq α] (a : α) (c : β) :
    ([(a, c)] : List (α × β)).lookup a = some c := by
  rw [List.lookup, show (a == a) = true from beq_iff_eq.mpr rfl]

theorem assignLoop_spec : ∀ (ks : List String) (p : PMap)
    (res r2i : List (String × ℕ)) (cnt : ℕ),
    UFInv p → (∀ k ∈ ks, k ∈ keysP p) → ks.Nodup →
    r2i.map Prod.snd = List.range' 1 cnt →
    (∀ u ∈ ks, res.lookup u = none) →
    (assignLoop p ks res r2i cnt).1.map Prod.fst = res.map Prod.fst ++ ks
    ∧ (∀ r c, r2i.lookup r = some c →
        (assignLoop p ks res r2i cnt).2.1.lookup r = some c)
    ∧ (assignLoop p ks res r2i cnt).2.1.map Prod.snd
        = List.range' 1 (assignLoop p ks res r2i cnt).2.2.1
    ∧ (∀ u c, res.lookup u = some c →
        (assignLoop p ks res r2i cnt).1.lookup u = some c)
    ∧ (∀ u ∈ ks, (assignLoop p ks res r2i cnt).1.lookup u
          = (assignLoop p ks res r2i cnt).2.1.lookup (rootD p u)
        ∧ ((assignLoop p ks res r2i cnt).2.1.lookup (rootD p u)).isSome = true) := by
  intro ks
  induction ks with
  | nil =>
    intro p res r2i cnt _ _ _ h3 _
    refine ⟨by simp [assignLoop], fun r c h => h, by simpa [assignLoop] using h3,
      fun u c h => h, fun u hu => absurd hu (List.not_mem_nil u)⟩
  | cons uid rest ih =>
    intro p res r2i cnt hu hks hnd h3 h5
    have huid : uid ∈ keysP p := hks uid (List.mem_cons_self uid rest)
    obtain ⟨hf1, hfu, hfk, hfr⟩ := find_spec hu uid
    rw [if_pos huid] at hfk
    have hks' : ∀ k ∈ rest, k ∈ keysP (find p uid).2 := by
      intro k hk
      rw [hfk]
      exact hks k (List.mem_cons_of_mem uid hk)
    have hnd' : rest.Nodup := hnd.of_cons
    have hnotin : uid ∉ rest := by
      simpa using (List.nodup_cons.mp hnd).1
    cases hl : r2i.lookup (find p uid).1 with
    | some cid =>
      have hstep : assignLoop p (uid :: rest) res r2i cnt
          = assignLoop (find p uid).2 rest (res ++ [(uid, cid)]) r2i cnt := by
        simp only [assignLoop]
        rw [hl]
      have h5' : ∀ u ∈ rest, (res ++ [(uid, cid)]).lookup u = none := by
        intro u hur
        have hne : u ≠ uid := fun he => hnotin (he ▸ hur)
        rw [lookup_append_none (h5 u (List.mem_cons_of_mem uid hur)),
          lookup_singleton_ne hne]
      obtain ⟨c1, c2, c3, c5, c4⟩ :=
        ih (find p uid).2 (res ++ [(uid, cid)]) r2i cnt hfu hks' hnd' h3 h5'
      rw [hstep]
      refine ⟨?_, c2, c3, ?_, ?_⟩
      · rw [c1]
        simp
      · intro u c h
        exact c5 u c (lookup_append_some h)
      · intro u hu1
        rcases List.mem_cons.mp hu1 with he | he
        · subst he
          have hres : (res ++ [(u, cid)]).lookup u = some cid := by
            rw [lookup_append_none (h5 u (List.mem_cons_self u rest)),
              lookup_singleton_self]
          have hout : (assignLoop (find p u).2 rest (res ++ [(u, cid)]) r2i cnt).1.lookup u
              = some cid := c5 u cid hres
          have hr2 : (assignLoop (find p u).2 rest (res ++ [(u, cid)]) r2i cnt).2.1.lookup (rootD p u)
              = some cid := by
            apply c2
            rw [← hf1]
            exact hl
          rw [hout, hr2]
          exact ⟨rfl, rfl⟩
        · obtain ⟨d1, d2⟩ := c4 u he
          rw [hfr u] at d1 d2
          exact ⟨d1, d2⟩
    | none =>
      have hstep : assignLoop p (uid :: rest) res r2i cnt
          = assignLoop (find p uid).2 rest (res ++ [(uid, cnt + 1)])
              (r2i ++ [((find p uid).1, cnt + 1)]) (cnt + 1) := by
        simp only [assignLoop]
        rw [hl]
      have h3' : (r2i ++ [((find p uid).1, cnt + 1)]).map Prod.snd
          = List.range' 1 (cnt + 1) := by
        rw [List.map_append, h3, List.range'_1_concat]
        simp [Nat.add_comm]
      have h5' : ∀ u ∈ rest, (res ++ [(uid, cnt + 1)]).lookup u = none := by
        intro u hur
        have hne : u ≠ uid := fun he => hnotin (he ▸ hur)
        rw [lookup_append_none (h5 u (List.mem_cons_of_mem uid hur)),
          lookup_singleton_ne hne]
      obtain ⟨c1, c2, c3, c5, c4⟩ :=
        ih (find p uid).2 (res ++ [(uid, cnt + 1)])
          (r2i ++ [((find p uid).1, cnt + 1)]) (cnt + 1) hfu hks' hnd' h3' h5'
      rw [hstep]
      refine ⟨?_, ?_, c3, ?_, ?_⟩
      · rw [c1]
        simp
      · intro r c h
        exact c2 r c (lookup_append_some h)
      · intro u c h
        exact c5 u c (lookup_append_some h)
      · intro u hu1
        rcases List.mem_cons.mp hu1 with he | he
        · subst he
          have hres : (res ++ [(u, cnt + 1)]).lookup u = some (cnt + 1) := by
            rw [lookup_append_none (h5 u (List.mem_cons_self u rest)),
              lookup_singleton_self]
          have hout : (assignLoop (find p u).2 rest (res ++ [(u, cnt + 1)])
              (r2i ++ [((find p u).1, cnt + 1)]) (cnt + 1)).1.lookup u
              = some (cnt + 1) := c5 u (cnt + 1) hres
          have hr2base : (r2i ++ [((find p u).1, cnt + 1)]).lookup (rootD p u)
              = some (cnt + 1) := by
            rw [← hf1]
            rw [lookup_append_none hl, lookup_singleton_self]
          have hr2 : (assignLoop (find p u).2 rest (res ++ [(u, cnt + 1)])
              (r2i ++ [((find p u).1, cnt + 1)]) (cnt + 1)).2.1.lookup (rootD p u)
              = some (cnt + 1) := c2 (rootD p u) (cnt + 1) hr2base
          rw [hout, hr2]
          exact ⟨rfl, rfl⟩
        · obtain ⟨d1, d2⟩ := c4 u he
          rw [hfr u] at d1 d2
          exact ⟨d1, d2⟩

theorem nodup_range'_one : ∀ (s n : ℕ), (List.range' s n).Nodup := by
  intro s n
  induction n generalizing s with
  | zero => simp
  | succ k ih =>
    rw [List.range']
    refine List.nodup_cons.mpr ⟨?_, ih (s + 1)⟩
    intro hmem
    obtain ⟨i, _, hi⟩ := List.mem_range'.mp hmem
    omega

theorem initFold_spec (ids : List String) :
    SelfP (initFold ids) ∧ UFInv (initFold ids)
    ∧ (∀ x, x ∈ keysP (initFold ids) ↔ x ∈ ids)
    ∧ (∀ y, rootD (initFold ids) y = y) := by
  obtain ⟨ha, hb, hc⟩ := initFold_aux_spec ids [] (fun e he => absurd he (List.not_mem_nil e))
    (by simp [keysP])
  have hinv := selfP_ufInv ha hb
  have hc2 : ∀ x, x ∈ keysP (initFold ids) ↔ x ∈ keysP ([] : PMap) ∨ x ∈ ids := hc
  refine ⟨ha, hinv, fun x => ?_, selfP_rootD ha⟩
  rw [hc2 x]
  simp [keysP]

theorem unionFold_keys_cond (pairs : List (String × String)) :
    ∀ q ∈ pairs, q.1 ∈ keysP (initFold (nodeIds pairs))
      ∧ q.2 ∈ keysP (initFold (nodeIds pairs)) := by
  intro q hq
  obtain ⟨_, _, hc, _⟩ := initFold_spec (nodeIds pairs)
  constructor
  · rw [hc]
    exact List.mem_append_left _ (List.mem_map_of_mem Prod.fst hq)
  · rw [hc]
    exact List.mem_append_right _ (List.mem_map_of_mem Prod.snd hq)

theorem sameRoot_iff_conn (pairs : List (String × String)) (x y : String) :
    rootD (unionFold pairs (initFold (nodeIds pairs))) x
      = rootD (unionFold pairs (initFold (nodeIds pairs))) y
    ↔ Conn pairs x y := by
  obtain ⟨_, hu0, _, hr0⟩ := initFold_spec (nodeIds pairs)
  have hkc := unionFold_keys_cond pairs
  constructor
  · intro h
    refine unionFold_upper pairs (initFold (nodeIds pairs)) (Conn pairs) hu0 hkc
      (fun a b c hab hbc => Relation.ReflTransGen.trans hab hbc)
      (Relation.ReflTransGen.symmetric
        (fun u v huv => huv.elim (fun h1 => Or.inr h1) (fun h1 => Or.inl h1)))
      (fun u v huv => ?_)
      (fun q hq => Relation.ReflTransGen.single (Or.inl hq)) x y h
    rw [hr0 u, hr0 v] at huv
    rw [huv]
    exact Relation.ReflTransGen.refl
  · intro h
    induction h with
    | refl => rfl
    | tail _ hbc ih =>
      rcases hbc with h1 | h1
      · have := unionFold_pair pairs (initFold (nodeIds pairs)) hu0 hkc _ h1
        exact ih.trans this
      · have := unionFold_pair pairs (initFold (nodeIds pairs)) hu0 hkc _ h1
        exact ih.trans this.symm

theorem compute_clusters_char (pairs : List (String × String)) :
    (compute_clusters_from_pairs pairs).map Prod.fst
      = keysP (unionFold pairs (initFold (nodeIds pairs)))
    ∧ (∀ x, x ∈ keysP (unionFold pairs (initFold (nodeIds pairs))) ↔ x ∈ nodeIds pairs)
    ∧ (∀ x y, x ∈ nodeIds pairs → y ∈ nodeIds pairs →
        ((compute_clusters_from_pairs pairs).lookup x
            = (compute_clusters_from_pairs pairs).lookup y
          ↔ rootD (unionFold pairs (initFold (nodeIds pairs))) x
            = rootD (unionFold pairs (initFold (nodeIds pairs))) y))
    ∧ (∀ x, x ∈ nodeIds pairs →
        ((compute_clusters_from_pairs pairs).lookup x).isSome = true) := by
  obtain ⟨_, hu0, hmem0, _⟩ := initFold_spec (nodeIds pairs)
  have hkc := unionFold_keys_cond pairs
  obtain ⟨hu1, hk1⟩ := unionFold_inv pairs (initFold (nodeIds pairs)) hu0 hkc
  have hmem1 : ∀ x, x ∈ keysP (unionFold pairs (initFold (nodeIds pairs)))
      ↔ x ∈ nodeIds pairs := by
    intro x
    rw [hk1]
    exact hmem0 x
  have hnd1 : (keysP (unionFold pairs (initFold (nodeIds pairs)))).Nodup := hu1.nodup
  obtain ⟨c1, _, c3, _, c4⟩ :=
    assignLoop_spec (keysP (unionFold pairs (initFold (nodeIds pairs))))
      (unionFold pairs (initFold (nodeIds pairs))) [] [] 0 hu1
      (fun k hk => hk) hnd1 (by simp) (fun u _ => rfl)
  have hdef : compute_clusters_from_pairs pairs
      = (assignLoop (unionFold pairs (initFold (nodeIds pairs)))
          (keysP (unionFold pairs (initFold (nodeIds pairs)))) [] [] 0).1 := rfl
  have hsndnd : ((assignLoop (unionFold pairs (initFold (nodeIds pairs)))
      (keysP (unionFold pairs (initFold (nodeIds pairs)))) [] [] 0).2.1.map
        Prod.snd).Nodup := by
    rw [c3]
    exact nodup_range'_one 1 _
  refine ⟨by rw [hdef]; simpa using c1, hmem1, fun x y hx hy => ?_, fun x hx => ?_⟩
  · obtain ⟨dx1, dx2⟩ := c4 x ((hmem1 x).mpr hx)
    obtain ⟨dy1, dy2⟩ := c4 y ((hmem1 y).mpr hy)
    rw [hdef, dx1, dy1]
    constructor
    · intro h
      obtain ⟨cx, hcx⟩ := Option.isSome_iff_exists.mp dx2
      obtain ⟨cy, hcy⟩ := Option.isSome_iff_exists.mp dy2
      rw [hcx, hcy] at h
      obtain rfl : cx = cy := Option.some.injEq .. ▸ h
      exact lookup_inj_of_snd_nodup hsndnd hcx hcy
    · intro h
      rw [h]
  · obtain ⟨dx1, dx2⟩ := c4 x ((hmem1 x).mpr hx)
    rw [hdef, dx1]
    exact dx2

/-- C7: for every pairs table, two ids of the table receive the same cluster
id iff they are connected by a chain of pair records; in particular the pairs
`[(a,b), (b,c), (d,e)]` produce exactly the two clusters `{a,b,c}` (id 1) and
`{d,e}` (id 2). -/
theorem compute_clusters_correct :
    (∀ (pairs : List (String × String)) (x y : String),
        x ∈ nodeIds pairs → y ∈ nodeIds pairs →
        ((compute_clusters_from_pairs pairs).lookup x
            = (compute_clusters_from_pairs pairs).lookup y
          ↔ Conn pairs x y))
    ∧ compute_clusters_from_pairs [("a", "b"), ("b", "c"), ("d", "e")]
        = [("a", 1), ("b", 1), ("d", 2), ("c", 1), ("e", 2)]
    ∧ ((compute_clusters_from_pairs [("a", "b"), ("b", "c"), ("d", "e")]).filter
        (fun e => e.2 == 1)).map Prod.fst = ["a", "b", "c"]
    ∧ ((compute_clusters_from_pairs [("a", "b"), ("b", "c"), ("d", "e")]).filter
        (fun e => e.2 == 2)).map Prod.fst = ["d", "e"]
    ∧ (∀ e ∈ compute_clusters_from_pairs [("a", "b"), ("b", "c"), ("d", "e")],
        e.2 = 1 ∨ e.2 = 2) := by
  refine ⟨fun pairs x y hx hy => ?_, by decide, by decide, by decide, by decide⟩
  obtain ⟨_, _, c3, _⟩ := compute_clusters_char pairs
  rw [c3 x y hx hy]
  exact sameRoot_iff_conn pairs x y

/-- Witness for `compute_clusters_correct` at the concrete scenario table,
with the membership hypotheses discharged for the ids `a` and `c`. -/
theorem compute_clusters_correct_witness :
    (compute_clusters_from_pairs [("a", "b"), ("b", "c"), ("d", "e")]).lookup "a"
        = (compute_clusters_from_pairs [("a", "b"), ("b", "c"), ("d", "e")]).lookup "c"
      ↔ Conn [("a", "b"), ("b", "c"), ("d", "e")] "a" "c" :=
  compute_clusters_correct.1 [("a", "b"), ("b", "c"), ("d", "e")] "a" "c"
    (by decide) (by decide)

/-- C10: the keys of the cluster mapping are exactly the string forms of the
ids appearing in either id column, and any two ids with equal string form are
treated as the same node: both look up to the same cluster id. -/
theorem compute_clusters_general_spec :
    (∀ (α : Type) (f : α → String) (pairs : List (α × α)) (s : String),
        s ∈ (compute_clusters_general f pairs).map Prod.fst
        ↔ ∃ u, (u ∈ pairs.map Prod.fst ∨ u ∈ pairs.map Prod.snd) ∧ f u = s)
    ∧ (∀ (α : Type) (f : α → String) (pairs : List (α × α)) (u v : α),
        (u ∈ pairs.map Prod.fst ∨ u ∈ pairs.map Prod.snd) →
        (v ∈ pairs.map Prod.fst ∨ v ∈ pairs.map Prod.snd) →
        f u = f v →
        ∃ c, (compute_clusters_general f pairs).lookup (f u) = some c
          ∧ (compute_clusters_general f pairs).lookup (f v) = some c) := by
  have hnode : ∀ (α : Type) (f : α → String) (pairs : List (α × α)) (s : String),
      s ∈ nodeIds (pairs.map (fun q => (f q.1, f q.2)))
      ↔ ∃ u, (u ∈ pairs.map Prod.fst ∨ u ∈ pairs.map Prod.snd) ∧ f u = s := by
    intro α f pairs s
    simp only [nodeIds, List.mem_append, List.map_map, List.mem_map,
      Function.comp_apply]
    constructor
    · rintro (⟨q, hq, hfq⟩ | ⟨q, hq, hfq⟩)
      · exact ⟨q.1, Or.inl ⟨q, hq, rfl⟩, hfq⟩
      · exact ⟨q.2, Or.inr ⟨q, hq, rfl⟩, hfq⟩
    · rintro ⟨u, (⟨q, hq, hq1⟩ | ⟨q, hq, hq1⟩), hfu⟩
      · exact Or.inl ⟨q, hq, by rw [hq1]; exact hfu⟩
      · exact Or.inr ⟨q, hq, by rw [hq1]; exact hfu⟩
  constructor
  · intro α f pairs s
    obtain ⟨c1, c2, _, _⟩ := compute_clusters_char (pairs.map fun q => (f q.1, f q.2))
    have hdef : compute_clusters_general f pairs
        = compute_clusters_from_pairs (pairs.map fun q => (f q.1, f q.2)) := rfl
    rw [hdef, c1, ← hnode α f pairs s]
    exact c2 s
  · intro α f pairs u v hu hv hfv
    obtain ⟨_, _, _, c4⟩ := compute_clusters_char (pairs.map fun q => (f q.1, f q.2))
    have hdef : compute_clusters_general f pairs
        = compute_clusters_from_pairs (pairs.map fun q => (f q.1, f q.2)) := rfl
    have hmemu : f u ∈ nodeIds (pairs.map (fun q => (f q.1, f q.2))) :=
      (hnode α f pairs (f u)).mpr ⟨u, hu, rfl⟩
    obtain ⟨c, hc⟩ := Option.isSome_iff_exists.mp (c4 (f u) hmemu)
    refine ⟨c, by rw [hdef]; exact hc, by rw [hdef, ← hfv]; exact hc⟩

/-- Witness for `compute_clusters_general_spec`: the integer id `1` and the
string id `"1"` have the same string form and receive the same cluster id. -/
theorem compute_clusters_general_spec_witness :
    ∃ c, (compute_clusters_general strOfCell [(Sum.inl 1, Sum.inr "1")]).lookup
            (strOfCell (Sum.inl 1)) = some c
      ∧ (compute_clusters_general strOfCell [(Sum.inl 1, Sum.inr "1")]).lookup
            (strOfCell (Sum.inr "1")) = some c :=
  compute_clusters_general_spec.2 (ℕ ⊕ String) strOfCell [(Sum.inl 1, Sum.inr "1")]
    (Sum.inl 1) (Sum.inr "1") (Or.inl (by simp)) (Or.inr (by simp)) (by decide)
